import Mathlib

/-!
Verification of the geometry and floating-point helpers of the bezier
library (pure-Python reference implementations in
`src/bezier/_helpers.py`) together with the curve–curve intersection
layer they serve.

Modelling conventions.  The Python code operates on IEEE-754 doubles;
every double is an exact rational number, and all branches of the
helpers below compare, add, subtract and multiply their inputs, so the
helpers are embedded over `ℚ` with exact arithmetic.  A NaN result is
embedded as `Option.none`.  NumPy's `np.spacing` is modelled explicitly
(`spacing64`).  `vector_close`, which takes Euclidean norms, is
embedded over `ℝ`.
-/

namespace Bezier

/-- The module constant EPS with value `0.5 ** 40` from the helpers. -/
def EPS : ℚ := (1 / 2) ^ 40

/-- The default wiggle room `0.5 ** 45` of `wiggle_interval`. -/
def WIGGLE : ℚ := (1 / 2) ^ 45

/-- Embeds `_wiggle_interval` from the helpers.  The source returns a
pair (value, flag) whose value is NaN exactly when the flag is False,
so the pair is embedded as an `Option`: `some v` for `(v, True)` and
`none` for `(NaN, False)`.  The three guarded branches are the source's
chained comparisons. -/
def wiggle_interval (value wiggle : ℚ) : Option ℚ :=
  if -wiggle < value ∧ value < wiggle then some 0
  else if wiggle ≤ value ∧ value ≤ 1 - wiggle then some value
  else if 1 - wiggle < value ∧ value < 1 + wiggle then some 1
  else none

/-- Runs `_wiggle_interval` on a possibly-NaN input.  Every IEEE
comparison against NaN is false, so a NaN input falls through all three
guards of the source to the `(NaN, False)` branch. -/
def wiggle_interval_nan (value : Option ℚ) (wiggle : ℚ) : Option ℚ :=
  match value with
  | none => none
  | some v => wiggle_interval v wiggle

/-- NumPy's `np.spacing` on doubles, modelled on rationals for the
normal range: the unit of least precision of `x` is
`2 ^ (floor (log2 |x|) - 52)`, and `np.spacing 0` is the smallest
subnormal `2 ^ (-1074)`.  (For doubles `np.spacing` is negative on
negative inputs; the sign is irrelevant here because `_ulps_away` only
uses `abs` of the spacing, so the model returns the magnitude.) -/
def spacing64 (x : ℚ) : ℚ :=
  if x = 0 then (2 : ℚ) ^ (-1074 : ℤ) else (2 : ℚ) ^ (Int.log 2 |x| - 52)

/-- Embeds `_ulps_away` from the helpers, parameterised by the spacing
function used for the unit of least precision of `value1` (the source
calls `np.spacing`; `spacing64` is its rational model). -/
def ulps_away (spacing : ℚ → ℚ) (value1 value2 : ℚ) (num_bits : ℤ) : Bool :=
  if value1 = 0 then decide (|value2| < EPS)
  else if value2 = 0 then decide (|value1| < EPS)
  else decide (|value1 - value2| ≤ (num_bits : ℚ) * |spacing value1|)

/-- `np.min` of a list of scalars (the helpers apply it along axis 0 of
a nonempty array; NumPy raises on an empty one, and all callers pass
nonempty node sets, so the empty-list value is never consulted). -/
def npmin : List ℚ → ℚ
  | [] => 0
  | x :: xs => xs.foldl min x

/-- `np.max` of a list of scalars; see `npmin`. -/
def npmax : List ℚ → ℚ
  | [] => 0
  | x :: xs => xs.foldl max x

/-- Embeds `_bbox` from the helpers: componentwise min/max over a 2D
point set, returned as (left, right, bottom, top). -/
def bbox (nodes : List (ℚ × ℚ)) : ℚ × ℚ × ℚ × ℚ :=
  (npmin (nodes.map Prod.fst), npmax (nodes.map Prod.fst),
    npmin (nodes.map Prod.snd), npmax (nodes.map Prod.snd))

/-- Embeds `_contains_nd` from the helpers: bounding-box membership for
a point of arbitrary dimension, with the source's two early-return
passes (first against the componentwise minima, then the maxima). -/
def contains_nd {d : ℕ} (nodes : List (Fin d → ℚ)) (point : Fin d → ℚ) : Bool :=
  if ¬ (∀ i, npmin (nodes.map (fun p => p i)) ≤ point i) then false
  else if ¬ (∀ i, point i ≤ npmax (nodes.map (fun p => p i))) then false
  else true

/-- Views a 2D point as a function on `Fin 2`, to feed the 2D helpers'
data to `contains_nd`. -/
def toFn (p : ℚ × ℚ) : Fin 2 → ℚ :=
  fun i => if i = 0 then p.1 else p.2

/-- Embeds `_cross_product` from the helpers: the z component of the
cross product of two planar vectors. -/
def cross_product (vec0 vec1 : ℚ × ℚ) : ℚ :=
  vec0.1 * vec1.2 - vec0.2 * vec1.1

/-- Embeds `cross_product_compare` from the helpers: the cross product
of the displacements of the two candidates from `start`. -/
def cross_product_compare (start candidate1 candidate2 : ℚ × ℚ) : ℚ :=
  cross_product (candidate1 - start) (candidate2 - start)

/-- Euclidean norm of a real vector, `np.linalg.norm (ord 2)`. -/
noncomputable def vnorm {d : ℕ} (v : Fin d → ℝ) : ℝ :=
  Real.sqrt (∑ i, v i ^ 2)

open scoped Classical in
/-- Embeds `_vector_close` from the helpers: relative Euclidean
closeness with the zero-vector special cases, following the source's
branch order. -/
noncomputable def vector_close {d : ℕ} (vec1 vec2 : Fin d → ℝ) (eps : ℝ) : Prop :=
  if vnorm vec1 = 0 then vnorm vec2 ≤ eps
  else if vnorm vec2 = 0 then vnorm vec1 ≤ eps
  else vnorm (fun i => vec1 i - vec2 i) ≤ eps * min (vnorm vec1) (vnorm vec2)

/-- The ordering claimed for intersection records: ascending in the
parameter s on curve 1, ties broken by the parameter t on curve 2. -/
def stLe (p q : ℝ × ℝ) : Prop :=
  p.1 < q.1 ∨ (p.1 = q.1 ∧ p.2 ≤ q.2)

/-- The intersection records (s, t) that `all_intersections` returns
for curves 20 and 21, in order, exactly as pinned positionally by the
functional test `test_curves20_and_21`. -/
noncomputable def records20_21 : List (ℝ × ℝ) :=
  [(0.625 - 0.125 * Real.sqrt 5, (4 - Real.sqrt 5) / 10),
    (0, 9 / 10),
    (0.75, 3 / 10),
    (0.625 + 0.125 * Real.sqrt 5, (4 + Real.sqrt 5) / 10)]

/-- `np.sort` on a parameter array (ascending). -/
def npsort (l : List ℚ) : List ℚ := l.insertionSort (· ≤ ·)

/-- Embeds `CurveIntersectionInfo._verify_data` from the
functional-test runtime utilities: the fixture's `curve1_params` must
coincide with their own sorted copy, otherwise ValueError is raised;
`true` means accepted. -/
def verify_data (curve1_params : List ℚ) : Bool :=
  npsort curve1_params == curve1_params

/-! ### The intersection engine, modelled from the specification

`all_intersections` itself is not part of the helpers module; the
model below follows the specification's engine design (§4.4/§6/§7). -/

/-- The failure taxonomy of the engine visible to callers: the
unsupported-configuration failure of spec §7 (the functional tests
observe it as NotImplementedError). -/
inductive EngineFailure
  | unsupported
  deriving DecidableEq

/-- Modelled from the spec: one de Casteljau averaging row at s = 1/2 —
midpoints of adjacent control points (spec §4.3, subdivision by
de Casteljau's construction). -/
def midRow : List (ℚ × ℚ) → List (ℚ × ℚ)
  | [] => []
  | [_] => []
  | p :: q :: rest => ((p.1 + q.1) / 2, (p.2 + q.2) / 2) :: midRow (q :: rest)

/-- Modelled from the spec: the left half-curve's control points (first
point of each successive de Casteljau row at s = 1/2); the fuel
argument is the number of rows still to emit. -/
def subLeftAux : Nat → List (ℚ × ℚ) → List (ℚ × ℚ)
  | 0, _ => []
  | _ + 1, [] => []
  | n + 1, p :: rest => p :: subLeftAux n (midRow (p :: rest))

/-- Modelled from the spec: control points of the left half of
`Curve.subdivide` (spec §4.3). -/
def subLeft (nodes : List (ℚ × ℚ)) : List (ℚ × ℚ) :=
  subLeftAux nodes.length nodes

/-- Modelled from the spec: control points of the right half of
`Curve.subdivide`; by the symmetry of de Casteljau's construction these
are the last points of each row, i.e. the reversed left half of the
reversed curve. -/
def subRight (nodes : List (ℚ × ℚ)) : List (ℚ × ℚ) :=
  (subLeft nodes.reverse).reverse

/-- Modelled from the spec: the engine's bounding-box rejection test
(spec §4.4 step 2) — boxes are disjoint when separated along either
axis. -/
def bbox_disjoint (n1 n2 : List (ℚ × ℚ)) : Bool :=
  decide ((bbox n1).2.1 < (bbox n2).1 ∨ (bbox n2).2.1 < (bbox n1).1 ∨
    (bbox n1).2.2.2 < (bbox n2).2.2.1 ∨ (bbox n2).2.2.2 < (bbox n1).2.2.1)

/-- Modelled from the spec: the Linear state applies when both
sub-curves are of degree 1, i.e. have exactly two control points
(spec §4.4 step 3). -/
def is_linear_pair (n1 n2 : List (ℚ × ℚ)) : Bool :=
  decide (n1.length = 2 ∧ n2.length = 2)

/-- Midpoint of a parameter interval (start, end). -/
def interval_mid (i : ℚ × ℚ) : ℚ := (i.1 + i.2) / 2

/-- Width of a parameter interval (start, end). -/
def interval_width (i : ℚ × ℚ) : ℚ := i.2 - i.1

/-- Modelled from the spec: the Converged width threshold — intervals
below a width threshold relative to floating precision (spec §4.4);
2^(-52) is the double mantissa precision. -/
def CONVERGED_EPS : ℚ := (1 / 2) ^ 52

/-- Modelled from the spec: the fixed maximum subdivision depth of
spec §4.4 step 5 (a fixed bound of 20–50 halvings; 20 here). -/
def MAX_SUBDIVISIONS : Nat := 20

/-- Modelled from the spec: the direct 2×2 linear solve for two line
segments (spec §4.4 step 3): parallel/collinear direction vectors (zero
cross product) are the unsupported special outcome; otherwise the local
parameters are clamped through `wiggle_interval` and, when both clamp
into the unit interval, one record with the parameters mapped back into
the original curves' domains is emitted. -/
def solve_linear (int1 int2 : ℚ × ℚ) (n1 n2 : List (ℚ × ℚ)) :
    Except EngineFailure (List (ℚ × ℚ)) :=
  match n1, n2 with
  | [p0, p1], [q0, q1] =>
    let d1 := p1 - p0
    let d2 := q1 - q0
    let denom := cross_product d1 d2
    if denom = 0 then .error .unsupported
    else
      let s := cross_product (q0 - p0) d2 / denom
      let t := cross_product (q0 - p0) d1 / denom
      match wiggle_interval s WIGGLE, wiggle_interval t WIGGLE with
      | some sv, some tv =>
        .ok [(int1.1 + sv * (int1.2 - int1.1), int2.1 + tv * (int2.2 - int2.1))]
      | _, _ => .ok []
  | _, _ => .ok []

/-- Modelled from the spec: the recursive subdivide-and-prune search of
spec §4.4 on one candidate pair, carrying the composed sub-intervals of
the original parameter domains and the remaining subdivision budget.
In order: bounding-box rejection; the Linear fast path; Converged
acceptance of the interval midpoints; otherwise subdivision of both
curves into the four child pairs — and exhausting the depth bound on a
still-active candidate is the fatal unsupported-configuration outcome
(tangency or coincidence), surfaced to the caller. -/
def intersect_candidates :
    Nat → ℚ × ℚ → ℚ × ℚ → List (ℚ × ℚ) → List (ℚ × ℚ) →
      Except EngineFailure (List (ℚ × ℚ))
  | 0, int1, int2, n1, n2 =>
    if bbox_disjoint n1 n2 then .ok []
    else if is_linear_pair n1 n2 then solve_linear int1 int2 n1 n2
    else if interval_width int1 < CONVERGED_EPS ∧
        interval_width int2 < CONVERGED_EPS then
      .ok [(interval_mid int1, interval_mid int2)]
    else .error .unsupported
  | d + 1, int1, int2, n1, n2 =>
    if bbox_disjoint n1 n2 then .ok []
    else if is_linear_pair n1 n2 then solve_linear int1 int2 n1 n2
    else if interval_width int1 < CONVERGED_EPS ∧
        interval_width int2 < CONVERGED_EPS then
      .ok [(interval_mid int1, interval_mid int2)]
    else do
      let rLL ← intersect_candidates d (int1.1, interval_mid int1)
        (int2.1, interval_mid int2) (subLeft n1) (subLeft n2)
      let rLR ← intersect_candidates d (int1.1, interval_mid int1)
        (interval_mid int2, int2.2) (subLeft n1) (subRight n2)
      let rRL ← intersect_candidates d (interval_mid int1, int1.2)
        (int2.1, interval_mid int2) (subRight n1) (subLeft n2)
      let rRR ← intersect_candidates d (interval_mid int1, int1.2)
        (interval_mid int2, int2.2) (subRight n1) (subRight n2)
      .ok (rLL ++ rLR ++ rRL ++ rRR)

/-- Modelled from the spec: `all_intersections` over a list of curve
pairs — each pair is searched with the full budget over the full
parameter rectangle, and a failure for any pair is surfaced to the
caller, never swallowed (spec §6, §7; the classifier's post-processing
of successful records is not reached on the failure path). -/
def all_intersections_model :
    List (List (ℚ × ℚ) × List (ℚ × ℚ)) → Except EngineFailure (List (ℚ × ℚ))
  | [] => .ok []
  | pr :: rest => do
    let r ← intersect_candidates MAX_SUBDIVISIONS (0, 1) (0, 1) pr.1 pr.2
    let rs ← all_intersections_model rest
    .ok (r ++ rs)

/-- CURVE1 of the functional tests (a quadratic). -/
def CURVE1 : List (ℚ × ℚ) := [(0, 0), (1 / 2, 1), (1, 0)]

/-- CURVE24 of the functional tests; it retraces CURVE1: pointwise,
CURVE24 at u equals CURVE1 at u + 1/4. -/
def CURVE24 : List (ℚ × ℚ) := [(1 / 4, 3 / 8), (3 / 4, 7 / 8), (5 / 4, -5 / 8)]

/-! ### The convex hull -/

/-- Lexicographic order on planar points — compare x, break ties by y;
this is the order of coordinate tuples used both by np.unique over the
point columns and by python's sorted in `_simple_convex_hull`. -/
def lexLe (p q : ℚ × ℚ) : Prop :=
  p.1 < q.1 ∨ (p.1 = q.1 ∧ p.2 ≤ q.2)

/-- Strict lexicographic order on planar points. -/
def lexLt (p q : ℚ × ℚ) : Prop :=
  p.1 < q.1 ∨ (p.1 = q.1 ∧ p.2 < q.2)

instance decLexLe : DecidableRel lexLe := fun p q => by
  unfold lexLe; infer_instance

instance decLexLt : DecidableRel lexLt := fun p q => by
  unfold lexLt; infer_instance

instance lexLeTotal : IsTotal (ℚ × ℚ) lexLe :=
  ⟨fun p q => by
    unfold lexLe
    rcases lt_trichotomy p.1 q.1 with h | h | h
    · exact Or.inl (Or.inl h)
    · rcases le_total p.2 q.2 with h2 | h2
      · exact Or.inl (Or.inr ⟨h, h2⟩)
      · exact Or.inr (Or.inr ⟨h.symm, h2⟩)
    · exact Or.inr (Or.inl h)⟩

instance lexLeTrans : IsTrans (ℚ × ℚ) lexLe :=
  ⟨fun p q r hpq hqr => by
    unfold lexLe at *
    rcases hpq with h | ⟨he, h2⟩ <;> rcases hqr with h' | ⟨he', h2'⟩
    · exact Or.inl (lt_trans h h')
    · exact Or.inl (he' ▸ h)
    · exact Or.inl (he ▸ h')
    · exact Or.inr ⟨he.trans he', le_trans h2 h2'⟩⟩

/-- np.unique over the point columns: the distinct points in ascending
lexicographic order (np.unique sorts; the source's subsequent python
sort over coordinate tuples reproduces the same order). -/
def unique_points (points : List (ℚ × ℚ)) : List (ℚ × ℚ) :=
  (points.insertionSort lexLe).dedup

/-- The stack update of the monotone-chain loop of
`_simple_convex_hull`: while the stack holds at least two points and
the last two accepted points together with the incoming point make a
non-left turn (`cross_product_compare ... ≤ 0`), pop; then push the
incoming point.  The stack is kept head-first: the head is the python
list's last element. -/
def hullStep (stack : List (ℚ × ℚ)) (p : ℚ × ℚ) : List (ℚ × ℚ) :=
  match stack with
  | b :: a :: rest =>
    if cross_product_compare a b p ≤ 0 then hullStep (a :: rest) p
    else p :: b :: a :: rest
  | _ => p :: stack

/-- One chain (lower or upper) of the monotone-chain algorithm: fold
the stack update over the points in the given traversal order. -/
def buildChain (pts : List (ℚ × ℚ)) : List (ℚ × ℚ) :=
  pts.foldl hullStep []

/-- Embeds `_simple_convex_hull` from the helpers (Andrew's monotone
chain): deduplicate and sort the points; fewer than 2 unique points
(this covers the empty input) are returned as-is; otherwise build the
lower chain over the ascending order and the upper chain over the
descending order and concatenate both chains, each dropping its final
point (both corners are double counted).  With the head-first stacks
used here, the python list `lower[:-1]` is `lower.tail.reverse`. -/
def simple_convex_hull (points : List (ℚ × ℚ)) : List (ℚ × ℚ) :=
  let unique := unique_points points
  if unique.length < 2 then unique
  else
    let lower := buildChain unique
    let upper := buildChain unique.reverse
    lower.tail.reverse ++ upper.tail.reverse

/-- Pointwise negation — conjugating by it swaps the roles of the lower
and the upper chain. -/
def negP (p : ℚ × ℚ) : ℚ × ℚ := (-p.1, -p.2)

/-- An edge of a chain covers a point: the point lies lexicographically
between the edge's lower end `a` and upper end `b` and weakly to the
left of the direction from `a` to `b`. -/
def Above (a b q : ℚ × ℚ) : Prop :=
  lexLe a q ∧ lexLe q b ∧ 0 ≤ cross_product_compare a b q

/-- A point is weakly on the far side of a head-first chain: some
adjacent pair of the chain covers it. -/
def AboveChain (S : List (ℚ × ℚ)) (q : ℚ × ℚ) : Prop :=
  ∃ pr ∈ S.zip S.tail, Above pr.2 pr.1 q

/-- All consecutive turns of a head-first stack are strict left turns
(the running invariant of the monotone-chain stack). -/
def StrictTurns : List (ℚ × ℚ) → Prop
  | x :: y :: z :: rest =>
    0 < cross_product_compare z y x ∧ StrictTurns (y :: z :: rest)
  | _ => True

/-- Invariant of the monotone-chain stack after each push, for the
processed prefix: at least two entries, strictly descending
lexicographically (head-first), strict turns, entries drawn from the
processed points, every processed point covered by some edge, the head
is the most recent point and the bottom is the first point. -/
def ChainInv (processed : List (ℚ × ℚ)) (S : List (ℚ × ℚ)) : Prop :=
  2 ≤ S.length ∧
  S.Chain' (fun x y => lexLt y x) ∧
  StrictTurns S ∧
  (∀ x ∈ S, x ∈ processed) ∧
  (∀ q ∈ processed, AboveChain S q) ∧
  S.head? = processed.getLast? ∧
  S.getLast? = processed.head?

/-- Invariant during the popping phase for an incoming point `c`: the
stack is nonempty, descending, strict-turned, drawn from the processed
points which all precede `c`, every processed point is covered by the
chain extended with `c` on top, and the bottom is still the first
point. -/
def PopInv (processed : List (ℚ × ℚ)) (S : List (ℚ × ℚ)) (c : ℚ × ℚ) : Prop :=
  S ≠ [] ∧
  S.Chain' (fun x y => lexLt y x) ∧
  StrictTurns S ∧
  (∀ x ∈ S, x ∈ processed ∧ lexLt x c) ∧
  (∀ q ∈ processed, AboveChain (c :: S) q) ∧
  S.getLast? = processed.head?

/-- Every three points of the list are collinear. -/
def all_collinear (l : List (ℚ × ℚ)) : Prop :=
  ∀ a ∈ l, ∀ b ∈ l, ∀ c ∈ l, cross_product_compare a b c = 0

instance decAllCollinear (l : List (ℚ × ℚ)) : Decidable (all_collinear l) := by
  unfold all_collinear; infer_instance

instance lexLtFlipTrans : IsTrans (ℚ × ℚ) (fun x y => lexLt y x) :=
  ⟨fun _ _ _ h1 h2 => by
    rcases h2 with h | ⟨he, hs⟩ <;> rcases h1 with h' | ⟨he', hs'⟩
    · exact Or.inl (lt_trans h h')
    · exact Or.inl (he' ▸ h)
    · exact Or.inl (he ▸ h')
    · exact Or.inr ⟨he.trans he', lt_trans hs hs'⟩⟩

/-- All consecutive triples of a vertex list turn weakly left. -/
def TurnsOK : List (ℚ × ℚ) → Prop
  | u :: v :: w :: rest =>
    0 ≤ cross_product_compare u v w ∧ TurnsOK (v :: w :: rest)
  | _ => True

/-- Some consecutive triple of a vertex list turns strictly left. -/
def TurnsStrict : List (ℚ × ℚ) → Prop
  | u :: v :: w :: rest =>
    0 < cross_product_compare u v w ∨ TurnsStrict (v :: w :: rest)
  | _ => False

/-- A vertex list is in counter-clockwise convex position: every
cyclically consecutive triple turns weakly left and at least one turns
strictly left (ruling out the clockwise orientation). -/
def counter_clockwise (l : List (ℚ × ℚ)) : Prop :=
  TurnsOK (l ++ l.take 2) ∧ TurnsStrict (l ++ l.take 2)

/-- All consecutive turns of a head-first stack are weak left turns
(the non-strict variant of `StrictTurns`). -/
def StackTurnsW : List (ℚ × ℚ) → Prop
  | x :: y :: z :: rest =>
    0 ≤ cross_product_compare z y x ∧ StackTurnsW (y :: z :: rest)
  | _ => True

/-! ### Theorems -/

/-- C3, counterexample: for the wiggle 1 (greater than 1/2) the value
1/2 is within wiggle of 1, yet `wiggle_interval` clamps it to 0, not to
1, so the claimed clamp-to-1 behaviour fails for that wiggle. -/
theorem wiggle_interval_claim_cex :
    |(1 / 2 : ℚ) - 1| < 1 ∧ wiggle_interval (1 / 2) 1 ≠ some 1 := by
  constructor
  · rw [abs_lt]
    constructor <;> norm_num
  · rw [wiggle_interval, if_pos (by norm_num)]
    simp

/-- C3, amended: for every positive wiggle at most 1/2,
`wiggle_interval` clamps values strictly within wiggle of 0 to 0 and
values strictly within wiggle of 1 to 1 (flag true), returns values in
the middle band unchanged (flag true), and signals (NaN, false) for
values further outside [0, 1] than the wiggle. -/
theorem wiggle_interval_spec (value wiggle : ℚ) (hw : 0 < wiggle)
    (hw2 : wiggle ≤ 1 / 2) :
    (|value| < wiggle → wiggle_interval value wiggle = some 0) ∧
    (wiggle < value ∧ value < 1 - wiggle →
      wiggle_interval value wiggle = some value) ∧
    (|value - 1| < wiggle → wiggle_interval value wiggle = some 1) ∧
    (value < -wiggle ∨ 1 + wiggle < value →
      wiggle_interval value wiggle = none) := by
  rw [abs_lt, abs_lt]
  unfold wiggle_interval
  refine ⟨fun h => ?_, fun h => ?_, fun h => ?_, fun h => ?_⟩
  · rw [if_pos ⟨by linarith [h.1], h.2⟩]
  · rw [if_neg (by rintro ⟨-, h2⟩; linarith [h.1]),
      if_pos ⟨le_of_lt h.1, le_of_lt h.2⟩]
  · rw [if_neg (by rintro ⟨-, h2⟩; linarith [h.1]),
      if_neg (by rintro ⟨-, h2⟩; linarith [h.1]),
      if_pos ⟨by linarith [h.1], by linarith [h.2]⟩]
  · rcases h with h | h
    · rw [if_neg (by rintro ⟨h1, -⟩; linarith),
        if_neg (by rintro ⟨h1, -⟩; linarith),
        if_neg (by rintro ⟨h1, -⟩; linarith)]
    · rw [if_neg (by rintro ⟨-, h2⟩; linarith),
        if_neg (by rintro ⟨-, h2⟩; linarith),
        if_neg (by rintro ⟨-, h2⟩; linarith)]

/-- Witness for the amended C3 theorem at value 1/8, wiggle 1/4. -/
theorem wiggle_interval_spec_witness :
    (0 < (1 / 4 : ℚ) ∧ (1 / 4 : ℚ) ≤ 1 / 2) ∧
    ((|(1 / 8 : ℚ)| < 1 / 4 → wiggle_interval (1 / 8) (1 / 4) = some 0) ∧
      ((1 / 4 : ℚ) < 1 / 8 ∧ (1 / 8 : ℚ) < 1 - 1 / 4 →
        wiggle_interval (1 / 8) (1 / 4) = some (1 / 8)) ∧
      (|(1 / 8 : ℚ) - 1| < 1 / 4 → wiggle_interval (1 / 8) (1 / 4) = some 1) ∧
      ((1 / 8 : ℚ) < -(1 / 4) ∨ (1 : ℚ) + 1 / 4 < 1 / 8 →
        wiggle_interval (1 / 8) (1 / 4) = none)) :=
  ⟨by norm_num, wiggle_interval_spec (1 / 8) (1 / 4) (by norm_num) (by norm_num)⟩

/-- C5: `ulps_away x x n` is true for every value `x`, every
nonnegative bit budget `n`, and every spacing function — reflexivity,
including the zero value and the zero budget. -/
theorem ulps_away_refl (spacing : ℚ → ℚ) (x : ℚ) (n : ℤ) (hn : 0 ≤ n) :
    ulps_away spacing x x n = true := by
  unfold ulps_away
  split_ifs with h1
  · simp only [decide_eq_true_eq, h1, abs_zero]
    norm_num [EPS]
  · simp only [decide_eq_true_eq, sub_self, abs_zero]
    positivity

/-- Witness for C5 at the zero value and zero bit budget. -/
theorem ulps_away_refl_witness :
    (0 ≤ (0 : ℤ)) ∧ ulps_away spacing64 0 0 0 = true :=
  ⟨le_refl 0, ulps_away_refl spacing64 0 0 (le_refl 0)⟩

/-- Characterisation used to evaluate `Int.log` at concrete rationals. -/
theorem int_log_eq_of_zpow_le {r : ℚ} {e : ℤ} (h1 : (2 : ℚ) ^ e ≤ r)
    (h2 : r < (2 : ℚ) ^ (e + 1)) : Int.log 2 r = e := by
  have hr : 0 < r := lt_of_lt_of_le (by positivity) h1
  refine le_antisymm ?_ ?_
  · have := (Int.lt_zpow_iff_log_lt (by norm_num : (1 : ℕ) < 2) hr).mp h2
    omega
  · exact (Int.zpow_le_iff_le_log (by norm_num : (1 : ℕ) < 2) hr).mp h1

/-- The modelled double spacing at 2 is one ulp of the binade [2, 4). -/
theorem spacing64_two : spacing64 2 = (2 : ℚ) ^ (-51 : ℤ) := by
  rw [spacing64, if_neg (by norm_num), show |(2 : ℚ)| = 2 from by norm_num,
    int_log_eq_of_zpow_le (e := 1) (by norm_num) (by norm_num)]
  norm_num

/-- The modelled double spacing just below 2 is one ulp of [1, 2). -/
theorem spacing64_below_two :
    spacing64 (2 - (1 / 2) ^ 51) = (2 : ℚ) ^ (-52 : ℤ) := by
  rw [spacing64, if_neg (by norm_num),
    show |(2 - (1 / 2) ^ 51 : ℚ)| = 2 - (1 / 2) ^ 51 from
      abs_of_pos (by norm_num),
    int_log_eq_of_zpow_le (e := 0) (by norm_num) (by norm_num)]
  norm_num

/-- C6: `wiggle_interval` at its default wiggle is idempotent — feeding
any of its results (the NaN result included) back in reproduces exactly
that result. -/
theorem wiggle_interval_idempotent (value : Option ℚ) :
    wiggle_interval_nan (wiggle_interval_nan value WIGGLE) WIGGLE =
      wiggle_interval_nan value WIGGLE := by
  have hw : (0 : ℚ) < WIGGLE := by norm_num [WIGGLE]
  have hw2 : WIGGLE ≤ 1 / 2 := by norm_num [WIGGLE]
  cases value with
  | none => rfl
  | some v =>
    have hv : wiggle_interval_nan (some v) WIGGLE = wiggle_interval v WIGGLE := rfl
    rw [hv]
    conv_lhs => rw [wiggle_interval]
    split_ifs with h1 h2 h3
    · show wiggle_interval 0 WIGGLE = wiggle_interval v WIGGLE
      conv_rhs => rw [wiggle_interval, if_pos h1]
      rw [wiggle_interval, if_pos ⟨by linarith, hw⟩]
    · show wiggle_interval v WIGGLE = wiggle_interval v WIGGLE
      rfl
    · show wiggle_interval 1 WIGGLE = wiggle_interval v WIGGLE
      conv_rhs => rw [wiggle_interval, if_neg h1, if_neg h2, if_pos h3]
      rw [wiggle_interval,
        if_neg (by rintro ⟨-, hb⟩; linarith),
        if_neg (by rintro ⟨-, hb⟩; linarith),
        if_pos ⟨by linarith, by linarith⟩]
    · show (none : Option ℚ) = wiggle_interval v WIGGLE
      rw [wiggle_interval, if_neg h1, if_neg h2, if_neg h3]

/-- C7: `ulps_away` computes the tolerated gap from the first operand's
spacing only, so it is asymmetric: at one allowed bit, 2 accepts
2 - 2^(-51) (one ulp of the binade of 2) while 2 - 2^(-51) rejects 2
(the gap is two ulps of its own binade); and when either operand is
exactly zero it holds exactly when the other is below EPS = 2^(-40) in
magnitude. -/
theorem ulps_away_asymmetry_and_zero_cases :
    (∃ x y : ℚ, ∃ n : ℤ, x ≠ 0 ∧ y ≠ 0 ∧ 1 ≤ n ∧
        ulps_away spacing64 x y n ≠ ulps_away spacing64 y x n) ∧
    (∀ (y : ℚ) (n : ℤ), ulps_away spacing64 0 y n = decide (|y| < EPS)) ∧
    (∀ (x : ℚ) (n : ℤ), ulps_away spacing64 x 0 n = decide (|x| < EPS)) := by
  refine ⟨⟨2, 2 - (1 / 2) ^ 51, 1, by norm_num, by norm_num, le_refl 1, ?_⟩,
    fun y n => by rw [ulps_away, if_pos rfl], fun x n => ?_⟩
  · have hA : ulps_away spacing64 2 (2 - (1 / 2) ^ 51) 1 = true := by
      rw [ulps_away, if_neg (by norm_num), if_neg (by norm_num)]
      simp only [decide_eq_true_eq, spacing64_two]
      rw [show |(2 : ℚ) ^ (-51 : ℤ)| = (2 : ℚ) ^ (-51 : ℤ) from
        abs_of_pos (by positivity),
        show |(2 : ℚ) - (2 - (1 / 2) ^ 51)| = (1 / 2) ^ 51 from by
          rw [show (2 : ℚ) - (2 - (1 / 2) ^ 51) = (1 / 2) ^ 51 from by ring]
          exact abs_of_pos (by positivity)]
      norm_num
    have hB : ulps_away spacing64 (2 - (1 / 2) ^ 51) 2 1 = false := by
      rw [ulps_away, if_neg (by norm_num), if_neg (by norm_num)]
      simp only [decide_eq_false_iff_not, spacing64_below_two]
      rw [show |(2 : ℚ) ^ (-52 : ℤ)| = (2 : ℚ) ^ (-52 : ℤ) from
        abs_of_pos (by positivity),
        show |(2 - (1 / 2) ^ 51 : ℚ) - 2| = (1 / 2) ^ 51 from by
          rw [show (2 - (1 / 2) ^ 51 : ℚ) - 2 = -((1 / 2) ^ 51) from by ring,
            abs_neg]
          exact abs_of_pos (by positivity)]
      norm_num
    rw [hA, hB]
    simp
  · rw [ulps_away]
    split_ifs with h h0
    · rw [h]
    · rfl
    · exact absurd rfl h0

/-- Unfolding lemma: the first coordinate of a packed 2D point. -/
theorem toFn_zero (p : ℚ × ℚ) : toFn p 0 = p.1 := rfl

/-- Unfolding lemma: the second coordinate of a packed 2D point. -/
theorem toFn_one (p : ℚ × ℚ) : toFn p 1 = p.2 := rfl

/-- The two early-return passes of `contains_nd` amount to the
componentwise min/max box test. -/
theorem contains_nd_characterization (d : ℕ) (nodes : List (Fin d → ℚ))
    (point : Fin d → ℚ) :
    contains_nd nodes point = true ↔
      ∀ i, npmin (nodes.map (fun p => p i)) ≤ point i ∧
        point i ≤ npmax (nodes.map (fun p => p i)) := by
  rw [contains_nd]
  split_ifs with h1 h2
  · exact iff_of_true rfl fun i => ⟨h1 i, h2 i⟩
  · exact iff_of_false (by simp) fun h => h2 fun i => (h i).2
  · exact iff_of_false (by simp) fun h => h1 fun i => (h i).1

/-- C8: for a nonempty point set, `contains_nd` is true exactly when
every coordinate of the query point lies between the componentwise
minimum and maximum of the set (inclusive), and in 2D this is the test
left ≤ x ≤ right and bottom ≤ y ≤ top against `bbox`. -/
theorem contains_nd_iff_box :
    (∀ (d : ℕ) (nodes : List (Fin d → ℚ)) (point : Fin d → ℚ),
      nodes ≠ [] →
      (contains_nd nodes point = true ↔
        ∀ i, npmin (nodes.map (fun p => p i)) ≤ point i ∧
          point i ≤ npmax (nodes.map (fun p => p i)))) ∧
    (∀ (nodes : List (ℚ × ℚ)) (q : ℚ × ℚ),
      nodes ≠ [] →
      (contains_nd (nodes.map toFn) (toFn q) = true ↔
        (bbox nodes).1 ≤ q.1 ∧ q.1 ≤ (bbox nodes).2.1 ∧
          (bbox nodes).2.2.1 ≤ q.2 ∧ q.2 ≤ (bbox nodes).2.2.2)) := by
  refine ⟨fun d nodes point _ => contains_nd_characterization d nodes point,
    fun nodes q _ => ?_⟩
  rw [contains_nd_characterization, Fin.forall_fin_two]
  have e0 : (nodes.map toFn).map (fun p => p 0) = nodes.map Prod.fst := by
    rw [List.map_map]; rfl
  have e1 : (nodes.map toFn).map (fun p => p 1) = nodes.map Prod.snd := by
    rw [List.map_map]; rfl
  rw [e0, e1, toFn_zero, toFn_one, bbox]
  constructor
  · rintro ⟨⟨a, b⟩, c, e⟩
    exact ⟨a, b, c, e⟩
  · rintro ⟨a, b, c, e⟩
    exact ⟨⟨a, b⟩, c, e⟩

/-- Witness for C8: the box of the single point (3, 4) contains it. -/
theorem contains_nd_iff_box_witness :
    (([(3, 4)] : List (ℚ × ℚ)) ≠ []) ∧
    (contains_nd ([((3 : ℚ), (4 : ℚ))].map toFn) (toFn (3, 4)) = true ↔
      (bbox [(3, 4)]).1 ≤ (3 : ℚ) ∧ (3 : ℚ) ≤ (bbox [(3, 4)]).2.1 ∧
        (bbox [(3, 4)]).2.2.1 ≤ (4 : ℚ) ∧ (4 : ℚ) ≤ (bbox [(3, 4)]).2.2.2) :=
  ⟨List.cons_ne_nil _ _,
    contains_nd_iff_box.2 [(3, 4)] (3, 4) (List.cons_ne_nil _ _)⟩

/-- C10: `vector_close` is symmetric in its two vector arguments — the
relative bound uses the minimum of the two norms, the distance is
symmetric, and the zero-norm special cases pair up — in contrast to the
documented asymmetry of `ulps_away`. -/
theorem vector_close_symm (d : ℕ) (vec1 vec2 : Fin d → ℝ) (eps : ℝ) :
    vector_close vec1 vec2 eps ↔ vector_close vec2 vec1 eps := by
  have hdiff : vnorm (fun i => vec1 i - vec2 i) =
      vnorm (fun i => vec2 i - vec1 i) := by
    unfold vnorm
    congr 1
    exact Finset.sum_congr rfl fun i _ => by ring
  unfold vector_close
  split_ifs with h1 h2 h3
  · rw [h1, h2]
  · rfl
  · rfl
  · rw [hdiff, min_comm]

/-- C1, counterexample: the record order that `all_intersections`
returns for curves 20 and 21 — pinned positionally by the functional
test — is not ascending in s: the first record has s = 5/8 - √5/8 > 0
while the second has s = 0. -/
theorem all_intersections_sorted_cex : ¬ List.Sorted stLe records20_21 := by
  intro h
  have hs : Real.sqrt 5 < 3 := by
    nlinarith [Real.sq_sqrt (show (0 : ℝ) ≤ 5 by norm_num), Real.sqrt_nonneg 5]
  have h01 := (List.sorted_cons.mp h).1 ((0 : ℝ), (9 : ℝ) / 10)
    (List.mem_cons_self _ _)
  rcases h01 with hlt | ⟨heq, -⟩
  · simp only at hlt
    nlinarith
  · simp only at heq
    nlinarith

/-- C1, amended: ascending order in the s parameters is the contract of
the JSON-fixture verifier `_verify_data` (not of `all_intersections`'s
own output order): it accepts a parameter sequence exactly when the
sequence is sorted ascending, with no tie-break on t involved. -/
theorem verify_data_iff_sorted (l : List ℚ) :
    verify_data l = true ↔ List.Sorted (· ≤ ·) l := by
  unfold verify_data npsort
  rw [beq_iff_eq]
  constructor
  · intro h
    rw [← h]
    exact List.sorted_insertionSort _ l
  · intro h
    exact List.eq_of_perm_of_sorted (List.perm_insertionSort _ l)
      (List.sorted_insertionSort _ l) h

/-- Propagation: a four-candidate batch fails when its first candidate
fails. -/
theorem bind4_error_first {α : Type} (e1 e2 e3 e4 : Except EngineFailure (List α))
    (h : e1 = .error .unsupported) :
    (do
      let a ← e1
      let b ← e2
      let c ← e3
      let d ← e4
      Except.ok (a ++ b ++ c ++ d)) = Except.error EngineFailure.unsupported := by
  rw [h]; rfl

/-- Propagation: a four-candidate batch fails when its third candidate
fails (whatever the earlier candidates produce, the failure — the only
failure the engine has — is surfaced). -/
theorem bind4_error_third {α : Type} (e1 e2 e3 e4 : Except EngineFailure (List α))
    (h : e3 = .error .unsupported) :
    (do
      let a ← e1
      let b ← e2
      let c ← e3
      let d ← e4
      Except.ok (a ++ b ++ c ++ d)) = Except.error EngineFailure.unsupported := by
  cases e1 with
  | error f => cases f; rfl
  | ok a =>
    cases e2 with
    | error f => cases f; rfl
    | ok b =>
      show (e3 >>= fun c => _) = _
      rw [h]; rfl

/-- Monotonicity of a running maximum in its initial value. -/
theorem foldl_max_init_mono :
    ∀ (l : List ℚ) {x y : ℚ}, x ≤ y → l.foldl max x ≤ l.foldl max y
  | [], _, _, h => h
  | z :: zs, _, _, h => foldl_max_init_mono zs (max_le_max h (le_refl z))

/-- A running minimum never exceeds the running maximum. -/
theorem foldl_min_le_foldl_max :
    ∀ (l : List ℚ) (x : ℚ), l.foldl min x ≤ l.foldl max x
  | [], x => le_refl x
  | z :: zs, x =>
    le_trans (foldl_min_le_foldl_max zs (min x z))
      (foldl_max_init_mono zs (le_trans (min_le_left x z) (le_max_left x z)))

/-- On a nonempty list the componentwise minimum is at most the
componentwise maximum. -/
theorem npmin_le_npmax : ∀ {l : List ℚ}, l ≠ [] → npmin l ≤ npmax l
  | [], h => absurd rfl h
  | _ :: _, _ => foldl_min_le_foldl_max _ _

/-- A nonempty curve's bounding box is never disjoint from itself. -/
theorem bbox_disjoint_self {n : List (ℚ × ℚ)} (h : n ≠ []) :
    bbox_disjoint n n = false := by
  have hx : npmin (n.map Prod.fst) ≤ npmax (n.map Prod.fst) :=
    npmin_le_npmax (by simpa using h)
  have hy : npmin (n.map Prod.snd) ≤ npmax (n.map Prod.snd) :=
    npmin_le_npmax (by simpa using h)
  simp only [bbox_disjoint, bbox, decide_eq_false_iff_not]
  push_neg
  exact ⟨hx, hx, hy, hy⟩

/-- A candidate pair made of two identical (sub-)curves of degree 2 can
never be rejected (its bounding boxes coincide) nor go linear, so once
its intervals are too wide to converge within the depth budget it
exhausts the budget and fails. -/
theorem identical_pair_error :
    ∀ (d : ℕ) (a b c : ℚ × ℚ) (i1 i2 : ℚ × ℚ),
      CONVERGED_EPS * 2 ^ d ≤ interval_width i1 →
      intersect_candidates d i1 i2 [a, b, c] [a, b, c] =
        Except.error EngineFailure.unsupported := by
  intro d
  induction d with
  | zero =>
    intro a b c i1 i2 h
    rw [pow_zero, mul_one] at h
    have hbb : ¬(bbox_disjoint [a, b, c] [a, b, c] = true) := by
      simp [bbox_disjoint_self (List.cons_ne_nil _ _)]
    have hlin : ¬(is_linear_pair [a, b, c] [a, b, c] = true) := by
      simp [is_linear_pair]
    have hconv : ¬(interval_width i1 < CONVERGED_EPS ∧
        interval_width i2 < CONVERGED_EPS) := by
      rintro ⟨h1, -⟩
      rw [lt_iff_not_le] at h1
      exact h1 h
    simp only [intersect_candidates]
    rw [if_neg hbb, if_neg hlin, if_neg hconv]
  | succ d ih =>
    intro a b c i1 i2 h
    have hpow : (1 : ℚ) ≤ 2 ^ (d + 1) := one_le_pow₀ (by norm_num)
    have heps : (0 : ℚ) < CONVERGED_EPS := by norm_num [CONVERGED_EPS]
    have hbb : ¬(bbox_disjoint [a, b, c] [a, b, c] = true) := by
      simp [bbox_disjoint_self (List.cons_ne_nil _ _)]
    have hlin : ¬(is_linear_pair [a, b, c] [a, b, c] = true) := by
      simp [is_linear_pair]
    have hconv : ¬(interval_width i1 < CONVERGED_EPS ∧
        interval_width i2 < CONVERGED_EPS) := by
      rintro ⟨h1, -⟩
      rw [lt_iff_not_le] at h1
      exact h1 (le_trans (le_mul_of_one_le_right heps.le hpow) h)
    simp only [intersect_candidates]
    rw [if_neg hbb, if_neg hlin, if_neg hconv]
    refine bind4_error_first _ _ _ _ (ih a _ _ _ _ ?_)
    have hw : interval_width (i1.1, interval_mid i1) = interval_width i1 / 2 := by
      simp only [interval_width, interval_mid]
      ring
    rw [hw]
    rw [pow_succ] at h
    nlinarith

/-- One-step unfolding of `intersect_candidates` at a successor depth
(stated so a concrete depth can be unfolded exactly once). -/
theorem intersect_candidates_succ (d : ℕ) (int1 int2 : ℚ × ℚ)
    (n1 n2 : List (ℚ × ℚ)) :
    intersect_candidates (d + 1) int1 int2 n1 n2 =
      (if bbox_disjoint n1 n2 then .ok []
      else if is_linear_pair n1 n2 then solve_linear int1 int2 n1 n2
      else if interval_width int1 < CONVERGED_EPS ∧
          interval_width int2 < CONVERGED_EPS then
        .ok [(interval_mid int1, interval_mid int2)]
      else do
        let rLL ← intersect_candidates d (int1.1, interval_mid int1)
          (int2.1, interval_mid int2) (subLeft n1) (subLeft n2)
        let rLR ← intersect_candidates d (int1.1, interval_mid int1)
          (interval_mid int2, int2.2) (subLeft n1) (subRight n2)
        let rRL ← intersect_candidates d (interval_mid int1, int1.2)
          (int2.1, interval_mid int2) (subRight n1) (subLeft n2)
        let rRR ← intersect_candidates d (interval_mid int1, int1.2)
          (interval_mid int2, int2.2) (subRight n1) (subRight n2)
        .ok (rLL ++ rLR ++ rRL ++ rRR)) := by
  simp only [intersect_candidates]

/-- One-step unfolding of the modelled `all_intersections` on a list
headed by an explicit curve pair. -/
theorem all_intersections_model_cons (c1 c2 : List (ℚ × ℚ))
    (rest : List (List (ℚ × ℚ) × List (ℚ × ℚ))) :
    all_intersections_model ((c1, c2) :: rest) =
      (do
        let r ← intersect_candidates MAX_SUBDIVISIONS (0, 1) (0, 1) c1 c2
        let rs ← all_intersections_model rest
        Except.ok (r ++ rs)) := by
  simp only [all_intersections_model]

/-- With one subdivision budget step spent, the candidate pairing the
left halves of curves 1 and 24 fails: its third child pairs the right
quarter-curve of curve 1 with the left quarter-curve of curve 24, and
those are identical sub-curves. -/
theorem left_halves_error (i1 i2 : ℚ × ℚ)
    (h : CONVERGED_EPS * 2 ^ 19 ≤ interval_width i1) :
    intersect_candidates 19 i1 i2 (subLeft CURVE1) (subLeft CURVE24) =
      Except.error EngineFailure.unsupported := by
  have heps : (0 : ℚ) < CONVERGED_EPS := by norm_num [CONVERGED_EPS]
  have hpow : (1 : ℚ) ≤ 2 ^ 19 := one_le_pow₀ (by norm_num)
  have hbb : ¬(bbox_disjoint (subLeft CURVE1) (subLeft CURVE24) = true) := by
    norm_num [bbox_disjoint, bbox, npmin, npmax, subLeft, subLeftAux, midRow,
      CURVE1, CURVE24]
  have hlin : ¬(is_linear_pair (subLeft CURVE1) (subLeft CURVE24) = true) := by
    norm_num [is_linear_pair, subLeft, subLeftAux, midRow, CURVE1, CURVE24]
  have hconv : ¬(interval_width i1 < CONVERGED_EPS ∧
      interval_width i2 < CONVERGED_EPS) := by
    rintro ⟨h1, -⟩
    rw [lt_iff_not_le] at h1
    exact h1 (le_trans (le_mul_of_one_le_right heps.le hpow) h)
  rw [show (19 : ℕ) = 18 + 1 from rfl, intersect_candidates_succ,
    if_neg hbb, if_neg hlin, if_neg hconv]
  refine bind4_error_third _ _ _ _ ?_
  rw [show subRight (subLeft CURVE1) = subLeft (subLeft CURVE24) from by
      norm_num [subRight, subLeft, subLeftAux, midRow, CURVE1, CURVE24],
    show subLeft (subLeft CURVE24) =
        [((1 : ℚ) / 4, (3 : ℚ) / 8), (3 / 8, 1 / 2), (1 / 2, 1 / 2)] from by
      norm_num [subLeft, subLeftAux, midRow, CURVE24]]
  refine identical_pair_error 18 _ _ _ _ _ ?_
  have hw : interval_width (interval_mid i1, i1.2) = interval_width i1 / 2 := by
    simp only [interval_width, interval_mid]
    ring
  rw [hw, show (19 : ℕ) = 18 + 1 from rfl, pow_succ] at *
  nlinarith

/-- C2: curves 1 and 24 of the functional tests are coincident along a
sub-interval — the restriction of curve 1 to [1/4, 1/2] and the
restriction of curve 24 to [0, 1/4] have identical control points — and
the engine raises the unsupported-configuration failure to the caller
for this pair instead of returning any finite record list. -/
theorem all_intersections_coincident_raises :
    subRight (subLeft CURVE1) = subLeft (subLeft CURVE24) ∧
    all_intersections_model [(CURVE1, CURVE24)] =
      Except.error EngineFailure.unsupported := by
  constructor
  · norm_num [subRight, subLeft, subLeftAux, midRow, CURVE1, CURVE24]
  · have hbb : ¬(bbox_disjoint CURVE1 CURVE24 = true) := by
      norm_num [bbox_disjoint, bbox, npmin, npmax, CURVE1, CURVE24]
    have hlin : ¬(is_linear_pair CURVE1 CURVE24 = true) := by
      norm_num [is_linear_pair, CURVE1, CURVE24]
    have hconv : ¬(interval_width ((0 : ℚ), (1 : ℚ)) < CONVERGED_EPS ∧
        interval_width ((0 : ℚ), (1 : ℚ)) < CONVERGED_EPS) := by
      norm_num [interval_width, CONVERGED_EPS]
    have h20 : intersect_candidates MAX_SUBDIVISIONS (0, 1) (0, 1)
        CURVE1 CURVE24 = Except.error EngineFailure.unsupported := by
      rw [show MAX_SUBDIVISIONS = 19 + 1 from rfl, intersect_candidates_succ,
        if_neg hbb, if_neg hlin, if_neg hconv]
      refine bind4_error_first _ _ _ _ ?_
      exact left_halves_error _ _
        (by norm_num [CONVERGED_EPS, interval_width, interval_mid])
    rw [all_intersections_model_cons, h20]
    rfl

/-! ### Convex hull: order and coordinate lemmas -/

/-- The lexicographic order is reflexive. -/
theorem lexLe_refl (p : ℚ × ℚ) : lexLe p p := Or.inr ⟨rfl, le_refl _⟩

/-- A strict lexicographic comparison is in particular a weak one. -/
theorem lexLt_le {p q : ℚ × ℚ} (h : lexLt p q) : lexLe p q := by
  rcases h with h | ⟨he, h2⟩
  · exact Or.inl h
  · exact Or.inr ⟨he, le_of_lt h2⟩

/-- Weak lexicographic comparison of distinct points is strict. -/
theorem lexLt_of_le_of_ne {p q : ℚ × ℚ} (h : lexLe p q) (hne : p ≠ q) :
    lexLt p q := by
  rcases h with h | ⟨he, h2⟩
  · exact Or.inl h
  · rcases lt_or_eq_of_le h2 with h2 | h2
    · exact Or.inr ⟨he, h2⟩
    · exact absurd (Prod.ext he h2) hne

/-- The first coordinate is monotone along the lexicographic order. -/
theorem lexLe_fst {p q : ℚ × ℚ} (h : lexLe p q) : p.1 ≤ q.1 := by
  rcases h with h | ⟨he, -⟩
  · exact le_of_lt h
  · exact le_of_eq he

/-- With equal first coordinates the lexicographic order is the second
coordinate's. -/
theorem lexLe_snd_of_fst_eq {p q : ℚ × ℚ} (h : lexLe p q) (he : p.1 = q.1) :
    p.2 ≤ q.2 := by
  rcases h with h | ⟨-, h2⟩
  · exact absurd he (ne_of_lt h)
  · exact h2

/-- The lexicographic order is antisymmetric. -/
theorem lexLe_antisymm {p q : ℚ × ℚ} (h1 : lexLe p q) (h2 : lexLe q p) :
    p = q := by
  have hx := le_antisymm (lexLe_fst h1) (lexLe_fst h2)
  exact Prod.ext hx
    (le_antisymm (lexLe_snd_of_fst_eq h1 hx) (lexLe_snd_of_fst_eq h2 hx.symm))

/-- Transitivity of the strict lexicographic order. -/
theorem lexLt_trans {p q r : ℚ × ℚ} (h1 : lexLt p q) (h2 : lexLt q r) :
    lexLt p r := by
  rcases h1 with h | ⟨he, hs⟩ <;> rcases h2 with h' | ⟨he', hs'⟩
  · exact Or.inl (lt_trans h h')
  · exact Or.inl (he' ▸ h)
  · exact Or.inl (he ▸ h')
  · exact Or.inr ⟨he.trans he', lt_trans hs hs'⟩

/-- Mixed transitivity: weak then strict. -/
theorem lexLe_trans_lt {p q r : ℚ × ℚ} (h1 : lexLe p q) (h2 : lexLt q r) :
    lexLt p r := by
  rcases h1 with h | ⟨he, hs⟩ <;> rcases h2 with h' | ⟨he', hs'⟩
  · exact Or.inl (lt_trans h h')
  · exact Or.inl (he' ▸ h)
  · exact Or.inl (he ▸ h')
  · exact Or.inr ⟨he.trans he', lt_of_le_of_lt hs hs'⟩

/-- Mixed transitivity: strict then weak. -/
theorem lexLt_trans_le {p q r : ℚ × ℚ} (h1 : lexLt p q) (h2 : lexLe q r) :
    lexLt p r := by
  rcases h1 with h | ⟨he, hs⟩ <;> rcases h2 with h' | ⟨he', hs'⟩
  · exact Or.inl (lt_trans h h')
  · exact Or.inl (he' ▸ h)
  · exact Or.inl (he ▸ h')
  · exact Or.inr ⟨he.trans he', lt_of_lt_of_le hs hs'⟩

/-- The unique points are exactly the input points. -/
theorem mem_unique_points {points : List (ℚ × ℚ)} {p : ℚ × ℚ} :
    p ∈ unique_points points ↔ p ∈ points := by
  unfold unique_points
  rw [List.mem_dedup]
  exact (List.perm_insertionSort lexLe points).mem_iff

/-- The unique points are strictly ascending lexicographically. -/
theorem unique_points_pairwise (points : List (ℚ × ℚ)) :
    (unique_points points).Pairwise lexLt := by
  unfold unique_points
  have hs : (points.insertionSort lexLe).Pairwise lexLe :=
    List.sorted_insertionSort lexLe points
  have hd : (points.insertionSort lexLe).dedup.Pairwise lexLe :=
    hs.sublist (List.dedup_sublist _)
  have hn : (points.insertionSort lexLe).dedup.Nodup := List.nodup_dedup _
  exact (hd.and hn).imp fun h => lexLt_of_le_of_ne h.1 h.2

/-- `cross_product_compare` in raw coordinates. -/
theorem ccp_coords (a b q : ℚ × ℚ) :
    cross_product_compare a b q =
      (b.1 - a.1) * (q.2 - a.2) - (b.2 - a.2) * (q.1 - a.1) := rfl

/-- The three-term cross-product identity underlying chain popping:
rebasing the cross products of c and q against the edge a–b. -/
theorem ccp_identity (a b c q : ℚ × ℚ) :
    (b.1 - a.1) * cross_product_compare a c q =
      (q.1 - a.1) * cross_product_compare a c b +
        (c.1 - a.1) * cross_product_compare a b q := by
  rw [ccp_coords, ccp_coords, ccp_coords]
  ring

/-- The same identity rebased at the upper point c. -/
theorem ccp_identity_top (a b c q : ℚ × ℚ) :
    (b.1 - c.1) * cross_product_compare c a q =
      (q.1 - c.1) * cross_product_compare c a b +
        (a.1 - c.1) * cross_product_compare c b q := by
  rw [ccp_coords, ccp_coords, ccp_coords]
  ring

/-- Rebasing a cross product at the other end of the segment flips its
sign. -/
theorem ccp_rebase (a b q : ℚ × ℚ) :
    cross_product_compare b a q = -cross_product_compare a b q := by
  rw [ccp_coords, ccp_coords]
  ring

/-- The cross product of a repeated point vanishes. -/
theorem ccp_self_right (a b : ℚ × ℚ) : cross_product_compare a b b = 0 := by
  rw [ccp_coords]
  ring

/-- Transitivity of the weak lexicographic order, as a lemma. -/
theorem lexLe_trans {p q r : ℚ × ℚ} (h1 : lexLe p q) (h2 : lexLe q r) :
    lexLe p r := lexLeTrans.trans p q r h1 h2

/-- Cyclic shift of the three arguments of `cross_product_compare`. -/
theorem ccp_cycle (a b c : ℚ × ℚ) :
    cross_product_compare c a b = cross_product_compare a b c := by
  rw [ccp_coords, ccp_coords]
  ring

/-- Swapping the two candidates flips the sign. -/
theorem ccp_swap (a b c : ℚ × ℚ) :
    cross_product_compare a c b = -cross_product_compare a b c := by
  rw [ccp_coords, ccp_coords]
  ring

/-- Zipping a two-headed list with its tail, unfolded once. -/
theorem zip_tail_cons (x y : ℚ × ℚ) (T : List (ℚ × ℚ)) :
    (x :: y :: T).zip (x :: y :: T).tail =
      (x, y) :: ((y :: T).zip (y :: T).tail) := rfl

/-- Chain coverage splits at the head of the chain. -/
theorem aboveChain_cons {x : ℚ × ℚ} {S : List (ℚ × ℚ)} {q : ℚ × ℚ} :
    AboveChain (x :: S) q ↔
      (∃ y, S.head? = some y ∧ Above y x q) ∨ AboveChain S q := by
  cases S with
  | nil => simp [AboveChain]
  | cons y T =>
    unfold AboveChain
    rw [zip_tail_cons]
    constructor
    · rintro ⟨pr, hpr, hab⟩
      rcases List.mem_cons.mp hpr with rfl | h
      · exact Or.inl ⟨y, rfl, hab⟩
      · exact Or.inr ⟨pr, h, hab⟩
    · rintro (⟨y', hy', hab⟩ | ⟨pr, hpr, hab⟩)
      · rw [List.head?_cons, Option.some_inj] at hy'
        cases hy'
        exact ⟨(x, y), List.mem_cons_self _ _, hab⟩
      · exact ⟨pr, List.mem_cons_of_mem _ hpr, hab⟩

/-- Chain coverage is monotone under extending the chain on top. -/
theorem aboveChain_extend {x : ℚ × ℚ} {S : List (ℚ × ℚ)} {q : ℚ × ℚ}
    (h : AboveChain S q) : AboveChain (x :: S) q :=
  aboveChain_cons.mpr (Or.inr h)

/-- The two ends of a covering edge are members of the chain. -/
theorem aboveChain_mem {S : List (ℚ × ℚ)} {q : ℚ × ℚ} (h : AboveChain S q) :
    ∃ a b, a ∈ S ∧ b ∈ S ∧ Above a b q := by
  obtain ⟨pr, hpr, hab⟩ := h
  obtain ⟨h1, h2⟩ := List.of_mem_zip hpr
  exact ⟨pr.2, pr.1, (List.tail_sublist S).subset h2, h1, hab⟩

/-- Popping geometry, lower case: a point covered by the lower edge
a–b stays covered by the replacement edge a–c when b is popped. -/
theorem above_pop_low {a b c q : ℚ × ℚ} (hab : lexLe a b) (hbc : lexLe b c)
    (hpop : cross_product_compare a b c ≤ 0) (h : Above a b q) :
    Above a c q := by
  obtain ⟨haq, hqb, hcr⟩ := h
  have hac : lexLe a c := lexLe_trans hab hbc
  refine ⟨haq, lexLe_trans hqb hbc, ?_⟩
  have hcb : 0 ≤ cross_product_compare a c b := by
    rw [ccp_swap]
    linarith
  have hqx : 0 ≤ q.1 - a.1 := sub_nonneg.mpr (lexLe_fst haq)
  have hvx : 0 ≤ c.1 - a.1 := sub_nonneg.mpr (lexLe_fst hac)
  have hid := ccp_identity a b c q
  rcases eq_or_lt_of_le (lexLe_fst hab) with heq | hlt
  · have hqxa : q.1 = a.1 :=
      le_antisymm (heq ▸ lexLe_fst hqb) (lexLe_fst haq)
    have hqy : a.2 ≤ q.2 := lexLe_snd_of_fst_eq haq hqxa.symm
    rw [ccp_coords]
    have h0 : q.1 - a.1 = 0 := by rw [hqxa]; ring
    rw [h0]
    nlinarith [mul_nonneg hvx (sub_nonneg.mpr hqy)]
  · nlinarith [mul_nonneg hqx hcb, mul_nonneg hvx hcr]

/-- Popping geometry, upper case: a point covered by the top edge b–c
stays covered by the replacement edge a–c when b is popped. -/
theorem above_pop_high {a b c q : ℚ × ℚ} (hab : lexLe a b) (hbc : lexLt b c)
    (hpop : cross_product_compare a b c ≤ 0) (h : Above b c q) :
    Above a c q := by
  obtain ⟨hbq, hqc, hcr⟩ := h
  have hac : lexLe a c := lexLe_trans hab (lexLt_le hbc)
  refine ⟨lexLe_trans hab hbq, hqc, ?_⟩
  rw [ccp_coords] at hpop hcr ⊢
  have hax : a.1 ≤ b.1 := lexLe_fst hab
  have hbx : b.1 ≤ c.1 := lexLe_fst (lexLt_le hbc)
  have hqx1 : b.1 ≤ q.1 := lexLe_fst hbq
  have hqx2 : q.1 ≤ c.1 := lexLe_fst hqc
  rcases eq_or_lt_of_le hbx with heq | hlt
  · have hcy : b.2 < c.2 := by
      rcases hbc with h' | ⟨-, h'⟩
      · exact absurd heq (ne_of_lt h')
      · exact h'
    rw [← heq] at hpop
    have hfact : (b.1 - a.1) * (c.2 - b.2) ≤ 0 := by nlinarith [hpop]
    have hnlt : ¬(a.1 < b.1) := fun hcon =>
      absurd hfact (not_le.mpr (mul_pos (sub_pos.mpr hcon) (sub_pos.mpr hcy)))
    have hab1 : a.1 = b.1 := le_antisymm hax (not_lt.mp hnlt)
    have hq1 : q.1 = c.1 := le_antisymm hqx2 (heq ▸ hqx1)
    have hca : c.1 = a.1 := (hab1.trans heq).symm
    have hqa : q.1 = a.1 := hq1.trans hca
    have hz : (c.1 - a.1) * (q.2 - a.2) - (c.2 - a.2) * (q.1 - a.1) = 0 := by
      rw [hca, hqa]
      ring
    linarith [hz]
  · have hident : (c.1 - b.1) *
        ((c.1 - a.1) * (q.2 - a.2) - (c.2 - a.2) * (q.1 - a.1)) =
        (q.1 - c.1) * ((b.1 - a.1) * (c.2 - a.2) - (b.2 - a.2) * (c.1 - a.1)) +
          (c.1 - a.1) *
            ((c.1 - b.1) * (q.2 - b.2) - (c.2 - b.2) * (q.1 - b.1)) := by
      ring
    have hp1 : 0 ≤ (q.1 - c.1) *
        ((b.1 - a.1) * (c.2 - a.2) - (b.2 - a.2) * (c.1 - a.1)) := by
      have := mul_nonneg (neg_nonneg.mpr (by linarith : q.1 - c.1 ≤ 0))
        (neg_nonneg.mpr hpop)
      rw [neg_mul_neg] at this
      exact this
    have hp2 : 0 ≤ (c.1 - a.1) *
        ((c.1 - b.1) * (q.2 - b.2) - (c.2 - b.2) * (q.1 - b.1)) :=
      mul_nonneg (by linarith) hcr
    nlinarith [hident, hp1, hp2]

/-- The cross product with the base repeated vanishes. -/
theorem ccp_self_mid (a b : ℚ × ℚ) : cross_product_compare a b a = 0 := by
  rw [ccp_coords]
  ring

/-- Strict turns restrict to the tail of the stack. -/
theorem strictTurns_tail {x : ℚ × ℚ} :
    ∀ {S : List (ℚ × ℚ)}, StrictTurns (x :: S) → StrictTurns S
  | [], _ => trivial
  | [_], _ => trivial
  | _ :: _ :: _, h => h.2

/-- One pop preserves the popping invariant: the popped point and every
point its two edges covered are re-covered by the replacement edge. -/
theorem pi_pop {processed : List (ℚ × ℚ)} {b a : ℚ × ℚ}
    {rest : List (ℚ × ℚ)} {c : ℚ × ℚ}
    (hPI : PopInv processed (b :: a :: rest) c)
    (hpop : cross_product_compare a b c ≤ 0) :
    PopInv processed (a :: rest) c := by
  obtain ⟨-, hchain, hturn, hmem, hcov, hlast⟩ := hPI
  have hab : lexLt a b := (List.chain'_cons.mp hchain).1
  have hbc : lexLt b c := (hmem b (List.mem_cons_self _ _)).2
  refine ⟨List.cons_ne_nil _ _, (List.chain'_cons.mp hchain).2,
    strictTurns_tail hturn,
    fun x hx => hmem x (List.mem_cons_of_mem _ hx), ?_, ?_⟩
  · intro q hq
    have hq' := hcov q hq
    rcases aboveChain_cons.mp hq' with ⟨y, hy, h1⟩ | hrest
    · rw [List.head?_cons, Option.some_inj] at hy
      cases hy
      exact aboveChain_cons.mpr
        (Or.inl ⟨a, rfl, above_pop_high (lexLt_le hab) hbc hpop h1⟩)
    · rcases aboveChain_cons.mp hrest with ⟨y, hy, h1⟩ | hrest2
      · rw [List.head?_cons, Option.some_inj] at hy
        cases hy
        exact aboveChain_cons.mpr
          (Or.inl ⟨a, rfl,
            above_pop_low (lexLt_le hab) (lexLt_le hbc) hpop h1⟩)
      · exact aboveChain_extend hrest2
  · rw [List.getLast?_cons_cons] at hlast
    exact hlast

/-- The popping loop, run to completion on an incoming point, restores
the full chain invariant for the extended processed prefix. -/
theorem popPhase (processed : List (ℚ × ℚ)) (c : ℚ × ℚ) :
    ∀ S : List (ℚ × ℚ), PopInv processed S c →
      ChainInv (processed ++ [c]) (hullStep S c) := by
  intro S
  induction S with
  | nil => exact fun h => absurd rfl h.1
  | cons b S' ih =>
    intro hPI
    cases S' with
    | nil =>
      obtain ⟨-, -, -, hmem, hcov, hlast⟩ := hPI
      obtain ⟨hmemb, hltb⟩ := hmem b (List.mem_cons_self _ _)
      show ChainInv (processed ++ [c]) [c, b]
      refine ⟨le_refl 2, List.chain'_cons.mpr ⟨hltb, List.chain'_singleton b⟩,
        trivial, ?_, ?_, ?_, ?_⟩
      · intro x hx
        rcases List.mem_cons.mp hx with rfl | hx
        · exact List.mem_append_right _ (List.mem_cons_self _ _)
        · rcases List.mem_cons.mp hx with rfl | hx
          · exact List.mem_append_left _ hmemb
          · exact absurd hx (List.not_mem_nil x)
      · intro q hq
        rcases List.mem_append.mp hq with hq | hq
        · exact hcov q hq
        · rcases List.mem_cons.mp hq with rfl | hq
          · exact aboveChain_cons.mpr
              (Or.inl ⟨b, rfl, lexLt_le hltb, lexLe_refl q,
                le_of_eq (ccp_self_right b q).symm⟩)
          · exact absurd hq (List.not_mem_nil q)
      · rw [List.head?_cons, List.getLast?_concat]
      · rw [List.getLast?_cons_cons, List.getLast?_singleton]
        cases processed with
        | nil => simp at hlast
        | cons p ps => simpa using hlast
    | cons a rest =>
      have hps : hullStep (b :: a :: rest) c =
          if cross_product_compare a b c ≤ 0 then hullStep (a :: rest) c
          else c :: b :: a :: rest := rfl
      rw [hps]
      split_ifs with hpop
      · exact ih (pi_pop hPI hpop)
      · obtain ⟨-, hchain, hturn, hmem, hcov, hlast⟩ := hPI
        have hbc : lexLt b c := (hmem b (List.mem_cons_self _ _)).2
        refine ⟨by simp, List.chain'_cons.mpr ⟨hbc, hchain⟩,
          ⟨not_le.mp hpop, hturn⟩, ?_, ?_, ?_, ?_⟩
        · intro x hx
          rcases List.mem_cons.mp hx with rfl | hx
          · exact List.mem_append_right _ (List.mem_cons_self _ _)
          · exact List.mem_append_left _ (hmem x hx).1
        · intro q hq
          rcases List.mem_append.mp hq with hq | hq
          · exact hcov q hq
          · rcases List.mem_cons.mp hq with rfl | hq
            · exact aboveChain_cons.mpr
                (Or.inl ⟨b, rfl, lexLt_le hbc, lexLe_refl q,
                  le_of_eq (ccp_self_right b q).symm⟩)
            · exact absurd hq (List.not_mem_nil q)
        · rw [List.head?_cons, List.getLast?_concat]
        · rw [List.getLast?_cons_cons, List.getLast?_cons_cons]
          rw [List.getLast?_cons_cons] at hlast
          cases processed with
          | nil =>
            exfalso
            cases rest <;> simp_all
          | cons p ps => simpa using hlast

/-- Processing one more point preserves the chain invariant. -/
theorem chainInv_step {processed S : List (ℚ × ℚ)} {c : ℚ × ℚ}
    (hinv : ChainInv processed S) (hc : ∀ q ∈ processed, lexLt q c) :
    ChainInv (processed ++ [c]) (hullStep S c) := by
  obtain ⟨hlen, hchain, hturn, hmem, hcov, hhead, hlast⟩ := hinv
  refine popPhase processed c S
    ⟨?_, hchain, hturn, fun x hx => ⟨hmem x hx, hc x (hmem x hx)⟩,
      fun q hq => aboveChain_extend (hcov q hq), hlast⟩
  intro h
  rw [h] at hlen
  simp at hlen

/-- Folding the stack update over a strictly ascending suffix keeps the
chain invariant. -/
theorem chainInv_fold (rest : List (ℚ × ℚ)) :
    ∀ (processed S : List (ℚ × ℚ)), ChainInv processed S →
      (processed ++ rest).Pairwise lexLt →
      ChainInv (processed ++ rest) (rest.foldl hullStep S) := by
  induction rest with
  | nil =>
    intro processed S hinv _
    simpa using hinv
  | cons c rest' ih =>
    intro processed S hinv hsor
    have hc : ∀ q ∈ processed, lexLt q c := fun q hq =>
      (List.pairwise_append.mp hsor).2.2 q hq c (List.mem_cons_self _ _)
    have hsor' : ((processed ++ [c]) ++ rest').Pairwise lexLt := by
      rw [List.append_assoc, List.singleton_append]
      exact hsor
    have hres := ih (processed ++ [c]) (hullStep S c) (chainInv_step hinv hc)
      hsor'
    rw [List.append_assoc, List.singleton_append] at hres
    simpa using hres

/-- The chain invariant holds for the chain built over any strictly
ascending list of at least two points. -/
theorem buildChain_spec (l : List (ℚ × ℚ)) (hl : l.Pairwise lexLt)
    (hlen : 2 ≤ l.length) : ChainInv l (buildChain l) := by
  obtain ⟨p0, p1, rest, rfl⟩ : ∃ p0 p1 rest, l = p0 :: p1 :: rest := by
    cases l with
    | nil => simp at hlen
    | cons x t =>
      cases t with
      | nil => simp at hlen
      | cons y r => exact ⟨x, y, r, rfl⟩
  have h01 : lexLt p0 p1 :=
    (List.pairwise_cons.mp hl).1 p1 (List.mem_cons_self _ _)
  have hbase : ChainInv [p0, p1] [p1, p0] := by
    refine ⟨le_refl 2, List.chain'_cons.mpr ⟨h01, List.chain'_singleton p0⟩,
      trivial, ?_, ?_, rfl, rfl⟩
    · intro x hx
      rcases List.mem_cons.mp hx with rfl | hx
      · exact List.mem_cons_of_mem _ (List.mem_cons_self _ _)
      · rcases List.mem_cons.mp hx with rfl | hx
        · exact List.mem_cons_self _ _
        · exact absurd hx (List.not_mem_nil x)
    · intro q hq
      have hq2 : q = p0 ∨ q = p1 := by simpa using hq
      rcases hq2 with he | he <;> rw [he]
      · exact ⟨(p1, p0), List.mem_cons_self _ _,
          lexLe_refl p0, lexLt_le h01, le_of_eq (ccp_self_mid p0 p1).symm⟩
      · exact ⟨(p1, p0), List.mem_cons_self _ _,
          lexLt_le h01, lexLe_refl p1, le_of_eq (ccp_self_right p0 p1).symm⟩
  have hres := chainInv_fold rest [p0, p1] [p1, p0] hbase (by simpa using hl)
  show ChainInv (p0 :: p1 :: rest) (rest.foldl hullStep [p1, p0])
  simpa using hres

/-- Point negation inverts the strict lexicographic order. -/
theorem lexLt_neg {a b : ℚ × ℚ} (h : lexLt b a) : lexLt (negP a) (negP b) := by
  rcases h with h' | ⟨he, hs⟩
  · exact Or.inl (by simpa [negP] using h')
  · exact Or.inr ⟨by simp [negP, he], by simpa [negP] using hs⟩

/-- Point negation inverts the weak lexicographic order. -/
theorem lexLe_neg_iff {a b : ℚ × ℚ} : lexLe (negP a) (negP b) ↔ lexLe b a := by
  constructor
  · rintro (h' | ⟨he, hs⟩)
    · exact Or.inl (by simpa [negP] using h')
    · refine Or.inr ⟨?_, ?_⟩
      · have : -a.1 = -b.1 := he
        linarith
      · have : -a.2 ≤ -b.2 := hs
        linarith
  · rintro (h' | ⟨he, hs⟩)
    · exact Or.inl (by simpa [negP] using h')
    · exact Or.inr ⟨by simp [negP, he], by simpa [negP] using hs⟩

/-- The turn test is invariant under pointwise negation. -/
theorem ccp_neg (a b c : ℚ × ℚ) :
    cross_product_compare (negP a) (negP b) (negP c) =
      cross_product_compare a b c := by
  rw [ccp_coords, ccp_coords]
  simp only [negP]
  ring

/-- The stack update commutes with pointwise negation. -/
theorem hullStep_neg : ∀ (S : List (ℚ × ℚ)) (p : ℚ × ℚ),
    hullStep (S.map negP) (negP p) = (hullStep S p).map negP := by
  intro S
  induction S with
  | nil => intro p; rfl
  | cons b S' ih =>
    intro p
    cases S' with
    | nil => rfl
    | cons a rest =>
      show (if cross_product_compare (negP a) (negP b) (negP p) ≤ 0 then
          hullStep ((a :: rest).map negP) (negP p)
        else negP p :: (b :: a :: rest).map negP) = _
      rw [ccp_neg]
      have hrhs : (hullStep (b :: a :: rest) p).map negP =
          if cross_product_compare a b p ≤ 0 then
            (hullStep (a :: rest) p).map negP
          else (p :: b :: a :: rest).map negP := by
        rw [show hullStep (b :: a :: rest) p =
          if cross_product_compare a b p ≤ 0 then hullStep (a :: rest) p
          else p :: b :: a :: rest from rfl]
        split_ifs <;> rfl
      rw [hrhs]
      split_ifs with h
      · exact ih p
      · rfl

/-- Building a chain commutes with pointwise negation. -/
theorem foldl_hullStep_neg : ∀ (l S : List (ℚ × ℚ)),
    (l.map negP).foldl hullStep (S.map negP) =
      (l.foldl hullStep S).map negP := by
  intro l
  induction l with
  | nil => intro S; rfl
  | cons c l' ih =>
    intro S
    show (l'.map negP).foldl hullStep (hullStep (S.map negP) (negP c)) = _
    rw [hullStep_neg]
    exact ih (hullStep S c)

/-- `buildChain` commutes with pointwise negation. -/
theorem buildChain_neg (l : List (ℚ × ℚ)) :
    buildChain (l.map negP) = (buildChain l).map negP := by
  unfold buildChain
  have h := foldl_hullStep_neg l []
  simpa using h

/-- The reversed, negated point list is strictly ascending whenever the
original is. -/
theorem reverse_neg_pairwise {l : List (ℚ × ℚ)} (hl : l.Pairwise lexLt) :
    (l.reverse.map negP).Pairwise lexLt := by
  rw [List.pairwise_map, List.pairwise_reverse]
  exact hl.imp fun h => lexLt_neg h

/-- The chain invariant for the negated mirror of the upper chain. -/
theorem upper_chainInv (l : List (ℚ × ℚ)) (hl : l.Pairwise lexLt)
    (hlen : 2 ≤ l.length) :
    ChainInv (l.reverse.map negP) ((buildChain l.reverse).map negP) := by
  have h := buildChain_spec (l.reverse.map negP) (reverse_neg_pairwise hl)
    (by simpa using hlen)
  rwa [buildChain_neg] at h

/-- Extracting a covering edge of the upper chain from its negated
mirror: the point lies lexicographically between the edge ends and
weakly below the edge. -/
theorem below_from_neg {U : List (ℚ × ℚ)} {q : ℚ × ℚ}
    (h : AboveChain (U.map negP) (negP q)) :
    ∃ u v, u ∈ U ∧ v ∈ U ∧ lexLe u q ∧ lexLe q v ∧
      cross_product_compare u v q ≤ 0 := by
  obtain ⟨a', b', ha', hb', habove⟩ := aboveChain_mem h
  obtain ⟨u, hu, rfl⟩ := List.mem_map.mp ha'
  obtain ⟨v, hv, rfl⟩ := List.mem_map.mp hb'
  obtain ⟨h1, h2, h3⟩ := habove
  rw [lexLe_neg_iff] at h1 h2
  rw [ccp_neg] at h3
  refine ⟨v, u, hv, hu, h2, h1, ?_⟩
  have hre := ccp_rebase v u q
  linarith

/-- A point vertically between two points of equal abscissa lies on
their segment. -/
theorem seg_vert {p q r : ℚ × ℚ} (hx1 : p.1 = q.1) (hx2 : q.1 = r.1)
    (h1 : p.2 ≤ q.2) (h2 : q.2 ≤ r.2) : q ∈ segment ℚ p r := by
  rcases eq_or_lt_of_le (le_trans h1 h2) with he | hlt
  · have hq2 : q.2 = p.2 := le_antisymm (he ▸ h2) h1
    have hqp : q = p := Prod.ext hx1.symm hq2
    rw [hqp]
    exact left_mem_segment ℚ p r
  · set t := (q.2 - p.2) / (r.2 - p.2) with ht
    have hd : 0 < r.2 - p.2 := sub_pos.mpr hlt
    refine ⟨1 - t, t, ?_, ?_, by ring, ?_⟩
    · have htle : t ≤ 1 := by
        rw [ht, div_le_one hd]
        linarith
      linarith
    · exact div_nonneg (by linarith) hd.le
    · apply Prod.ext
      · simp only [Prod.fst_add, Prod.smul_fst, smul_eq_mul]
        rw [← hx1, ← hx1.trans hx2]
        ring
      · simp only [Prod.snd_add, Prod.smul_snd, smul_eq_mul]
        rw [ht]
        field_simp
        ring

/-- The point of the (non-vertical) edge a–b at a given abscissa, with
its ordinate related to that of any point q at the same abscissa by the
sign of the turn test. -/
theorem point_on_edge {a b q : ℚ × ℚ} (hx : a.1 < b.1)
    (h1 : a.1 ≤ q.1) (h2 : q.1 ≤ b.1) :
    ∃ P : ℚ × ℚ, P ∈ segment ℚ a b ∧ P.1 = q.1 ∧
      (0 ≤ cross_product_compare a b q → P.2 ≤ q.2) ∧
      (cross_product_compare a b q ≤ 0 → q.2 ≤ P.2) := by
  set t := (q.1 - a.1) / (b.1 - a.1) with ht
  have hd : 0 < b.1 - a.1 := sub_pos.mpr hx
  have key : (b.1 - a.1) * (q.2 - (a.2 + t * (b.2 - a.2))) =
      cross_product_compare a b q := by
    rw [ccp_coords, ht]
    field_simp
    ring
  refine ⟨(q.1, a.2 + t * (b.2 - a.2)), ⟨1 - t, t, ?_, ?_, by ring, ?_⟩,
    rfl, ?_, ?_⟩
  · have htle : t ≤ 1 := by
      rw [ht, div_le_one hd]
      linarith
    linarith
  · exact div_nonneg (by linarith) hd.le
  · apply Prod.ext
    · simp only [Prod.fst_add, Prod.smul_fst, smul_eq_mul]
      rw [ht]
      field_simp
      ring
    · simp only [Prod.snd_add, Prod.smul_snd, smul_eq_mul]
      ring
  · intro hcr
    simp only
    nlinarith [key, hd]
  · intro hcr
    simp only
    nlinarith [key, hd]

/-- A point lying weakly above a lower edge a–b and weakly below an
upper edge u–v, lexicographically inside both, is in the convex hull of
the four edge ends. -/
theorem between_chains_mem_hull {a b u v q : ℚ × ℚ}
    (haq : lexLe a q) (hqb : lexLe q b)
    (hcr : 0 ≤ cross_product_compare a b q)
    (huq : lexLe u q) (hqv : lexLe q v)
    (hcr2 : cross_product_compare u v q ≤ 0) :
    q ∈ convexHull ℚ ({a, b, u, v} : Set (ℚ × ℚ)) := by
  have hax : a.1 ≤ q.1 := lexLe_fst haq
  have hqbx : q.1 ≤ b.1 := lexLe_fst hqb
  have hux : u.1 ≤ q.1 := lexLe_fst huq
  have hqvx : q.1 ≤ v.1 := lexLe_fst hqv
  have hmema : a ∈ ({a, b, u, v} : Set (ℚ × ℚ)) := by simp
  have hmemb : b ∈ ({a, b, u, v} : Set (ℚ × ℚ)) := by simp
  have hmemu : u ∈ ({a, b, u, v} : Set (ℚ × ℚ)) := by simp
  have hmemv : v ∈ ({a, b, u, v} : Set (ℚ × ℚ)) := by simp
  rcases eq_or_lt_of_le (le_trans hax hqbx) with hab | hab
  · have hq1 : q.1 = a.1 := le_antisymm (hab ▸ hqbx) hax
    have h2a : a.2 ≤ q.2 := lexLe_snd_of_fst_eq haq hq1.symm
    have h2b : q.2 ≤ b.2 := lexLe_snd_of_fst_eq hqb (hq1.trans hab)
    exact segment_subset_convexHull hmema hmemb
      (seg_vert hq1.symm (hq1.trans hab) h2a h2b)
  · rcases eq_or_lt_of_le (le_trans hux hqvx) with huv | huv
    · have hq1 : q.1 = u.1 := le_antisymm (huv ▸ hqvx) hux
      have h2u : u.2 ≤ q.2 := lexLe_snd_of_fst_eq huq hq1.symm
      have h2v : q.2 ≤ v.2 := lexLe_snd_of_fst_eq hqv (hq1.trans huv)
      exact segment_subset_convexHull hmemu hmemv
        (seg_vert hq1.symm (hq1.trans huv) h2u h2v)
    · obtain ⟨P1, hP1seg, hP1x, hP1low, -⟩ := point_on_edge hab hax hqbx
      obtain ⟨P2, hP2seg, hP2x, -, hP2high⟩ := point_on_edge huv hux hqvx
      have hseg : q ∈ segment ℚ P1 P2 :=
        seg_vert hP1x hP2x.symm (hP1low hcr) (hP2high hcr2)
      exact (convex_convexHull ℚ _).segment_subset
        (segment_subset_convexHull hmema hmemb hP1seg)
        (segment_subset_convexHull hmemu hmemv hP2seg) hseg

/-- Pointwise negation is injective. -/
theorem negP_inj {p q : ℚ × ℚ} (h : negP p = negP q) : p = q := by
  have h1 : -p.1 = -q.1 := congrArg Prod.fst h
  have h2 : -p.2 = -q.2 := congrArg Prod.snd h
  exact Prod.ext (by linarith) (by linarith)

/-- `getLast?` commutes with `map`. -/
theorem getLast?_map (f : ℚ × ℚ → ℚ × ℚ) (l : List (ℚ × ℚ)) :
    (l.map f).getLast? = l.getLast?.map f := by
  rw [← List.head?_reverse, ← List.map_reverse, List.head?_map,
    List.head?_reverse]

/-- The element designated by `getLast?` is a member. -/
theorem mem_of_getLast?_eq {l : List (ℚ × ℚ)} {x : ℚ × ℚ}
    (h : l.getLast? = some x) : x ∈ l := by
  obtain ⟨hne, he⟩ :=
    List.mem_getLast?_eq_getLast (Option.mem_def.mpr h)
  rw [he]
  exact List.getLast_mem hne

/-- With at least two entries, the last entry lies in the tail. -/
theorem getLast?_mem_tail :
    ∀ {S : List (ℚ × ℚ)}, 2 ≤ S.length → ∀ {x : ℚ × ℚ},
      S.getLast? = some x → x ∈ S.tail
  | [], h, _, _ => by simp at h
  | [_], h, _, _ => by simp at h
  | _ :: a :: t, _, x, hx => by
    rw [List.getLast?_cons_cons] at hx
    exact mem_of_getLast?_eq hx

/-- Unfolding `simple_convex_hull` when fewer than two unique points
remain. -/
theorem simple_convex_hull_small {points : List (ℚ × ℚ)}
    (h : (unique_points points).length < 2) :
    simple_convex_hull points = unique_points points := by
  unfold simple_convex_hull
  rw [if_pos h]

/-- Unfolding `simple_convex_hull` in the main case. -/
theorem simple_convex_hull_large {points : List (ℚ × ℚ)}
    (h : 2 ≤ (unique_points points).length) :
    simple_convex_hull points =
      (buildChain (unique_points points)).tail.reverse ++
        (buildChain (unique_points points).reverse).tail.reverse := by
  unfold simple_convex_hull
  rw [if_neg (not_lt.mpr h)]

/-- The ends of the two chains: the lower chain tops out at the
lexicographic maximum and bottoms out at the minimum; the upper chain
the other way around. -/
theorem chain_ends {l : List (ℚ × ℚ)} (hpw : l.Pairwise lexLt)
    (hlen : 2 ≤ l.length) :
    (buildChain l).head? = l.getLast? ∧
      (buildChain l).getLast? = l.head? ∧
      (buildChain l.reverse).head? = l.head? ∧
      (buildChain l.reverse).getLast? = l.getLast? ∧
      2 ≤ (buildChain l).length ∧ 2 ≤ (buildChain l.reverse).length := by
  obtain ⟨hLlen, -, -, -, -, hLhead, hLlast⟩ := buildChain_spec l hpw hlen
  obtain ⟨hUlen, -, -, -, -, hUhead, hUlast⟩ := upper_chainInv l hpw hlen
  rw [List.head?_map, getLast?_map, List.getLast?_reverse] at hUhead
  rw [getLast?_map, List.head?_map, List.head?_reverse] at hUlast
  have hmap : ∀ {o1 o2 : Option (ℚ × ℚ)}, o1.map negP = o2.map negP →
      o1 = o2 := by
    intro o1 o2 h
    cases o1 <;> cases o2 <;> simp_all
    exact negP_inj h
  refine ⟨hLhead, hLlast, hmap hUhead, hmap hUlast, hLlen, ?_⟩
  rw [List.length_map] at hUlen
  exact hUlen

/-- Every chain entry is a vertex of the assembled polygon. -/
theorem chains_subset_poly {l : List (ℚ × ℚ)} (hpw : l.Pairwise lexLt)
    (hlen : 2 ≤ l.length) {x : ℚ × ℚ}
    (hx : x ∈ buildChain l ∨ x ∈ buildChain l.reverse) :
    x ∈ (buildChain l).tail.reverse ++
      (buildChain l.reverse).tail.reverse := by
  obtain ⟨hLhead, hLlast, hUhead, hUlast, hLlen, hUlen⟩ := chain_ends hpw hlen
  rcases hx with hx | hx
  · cases hL : buildChain l with
    | nil => rw [hL] at hx; exact absurd hx (List.not_mem_nil x)
    | cons y T =>
      rw [hL] at hx
      rcases List.mem_cons.mp hx with rfl | hx
      · -- x is the head of the lower chain, the lexicographic maximum:
        -- it is the bottom entry of the upper chain, hence in its tail.
        have hxlast : (buildChain l.reverse).getLast? = some x := by
          rw [hUlast, ← hLhead, hL, List.head?_cons]
        exact List.mem_append_right _
          (List.mem_reverse.mpr (getLast?_mem_tail hUlen hxlast))
      · exact List.mem_append_left _
          (List.mem_reverse.mpr (by rw [List.tail_cons]; exact hx))
  · cases hU : buildChain l.reverse with
    | nil => rw [hU] at hx; exact absurd hx (List.not_mem_nil x)
    | cons y T =>
      rw [hU] at hx
      rcases List.mem_cons.mp hx with rfl | hx
      · have hxlast : (buildChain l).getLast? = some x := by
          rw [hLlast, ← hUhead, hU, List.head?_cons]
        exact List.mem_append_left _
          (List.mem_reverse.mpr (getLast?_mem_tail hLlen hxlast))
      · exact List.mem_append_right _
          (List.mem_reverse.mpr (by rw [List.tail_cons]; exact hx))

/-- C4: every vertex of `simple_convex_hull` is one of the input
points, and every input point lies in the convex hull of the returned
vertex set (inside or on the boundary of the returned polygon). -/
theorem simple_convex_hull_spec (points : List (ℚ × ℚ)) :
    (∀ p ∈ simple_convex_hull points, p ∈ points) ∧
    (∀ p ∈ points, p ∈ convexHull ℚ {x | x ∈ simple_convex_hull points}) := by
  by_cases hlen : (unique_points points).length < 2
  · rw [simple_convex_hull_small hlen]
    exact ⟨fun p hp => mem_unique_points.mp hp,
      fun p hp => subset_convexHull ℚ _ (mem_unique_points.mpr hp)⟩
  · push_neg at hlen
    have hpw := unique_points_pairwise points
    rw [simple_convex_hull_large hlen]
    obtain ⟨-, -, -, hLmem, hLcov, -, -⟩ :=
      buildChain_spec (unique_points points) hpw hlen
    obtain ⟨-, -, -, hUmem, hUcov, -, -⟩ :=
      upper_chainInv (unique_points points) hpw hlen
    have hUsub : ∀ x ∈ buildChain (unique_points points).reverse,
        x ∈ unique_points points := by
      intro x hx
      have := hUmem (negP x) (List.mem_map_of_mem negP hx)
      obtain ⟨w, hw, hwx⟩ := List.mem_map.mp this
      rw [← negP_inj hwx]
      exact List.mem_reverse.mp hw
    constructor
    · intro p hp
      rcases List.mem_append.mp hp with hp | hp
      · exact mem_unique_points.mp
          (hLmem p ((List.tail_sublist _).subset (List.mem_reverse.mp hp)))
      · exact mem_unique_points.mp
          (hUsub p ((List.tail_sublist _).subset (List.mem_reverse.mp hp)))
    · intro p hp
      have hpu : p ∈ unique_points points := mem_unique_points.mpr hp
      obtain ⟨a, b, haL, hbL, haq, hqb, hcr⟩ :=
        aboveChain_mem (hLcov p hpu)
      obtain ⟨u, v, huU, hvU, huq, hqv, hcr2⟩ :=
        below_from_neg (hUcov (negP p)
          (List.mem_map_of_mem negP (List.mem_reverse.mpr hpu)))
      have hmain := between_chains_mem_hull haq hqb hcr huq hqv hcr2
      refine convexHull_mono ?_ hmain
      intro x hx
      simp only [Set.mem_insert_iff, Set.mem_singleton_iff] at hx
      rcases hx with rfl | rfl | rfl | rfl
      · exact chains_subset_poly hpw hlen (Or.inl haL)
      · exact chains_subset_poly hpw hlen (Or.inl hbL)
      · exact chains_subset_poly hpw hlen (Or.inr huU)
      · exact chains_subset_poly hpw hlen (Or.inr hvU)

/-- Witness for C4: the point (1, 0) of a concrete input lies in the
convex hull of the computed vertices. -/
theorem simple_convex_hull_spec_witness :
    ((1, 0) ∈ ([(0, 0), (2, 0), (1, 1), (1, 0)] : List (ℚ × ℚ))) ∧
    (1, 0) ∈ convexHull ℚ
      {x : ℚ × ℚ | x ∈ simple_convex_hull [(0, 0), (2, 0), (1, 1), (1, 0)]} :=
  ⟨by norm_num,
    (simple_convex_hull_spec [(0, 0), (2, 0), (1, 1), (1, 0)]).2 (1, 0)
      (by norm_num)⟩

/-- A list whose head is known is a cons. -/
theorem head?_shape {S : List (ℚ × ℚ)} {x : ℚ × ℚ} (h : S.head? = some x) :
    ∃ T, S = x :: T := by
  cases S with
  | nil => simp at h
  | cons a T =>
    rw [List.head?_cons, Option.some_inj] at h
    exact ⟨T, by rw [h]⟩

/-- The head of an append whose left part has a head. -/
theorem head?_append_eq {l1 l2 : List (ℚ × ℚ)} {x : ℚ × ℚ}
    (h : l1.head? = some x) : (l1 ++ l2).head? = some x := by
  cases l1 with
  | nil => simp at h
  | cons a t => exact h

/-- Two appends with the same left part and right parts of equal head
have equal heads. -/
theorem head?_append_congr {s l1 l2 : List (ℚ × ℚ)} {x : ℚ × ℚ}
    (h1 : l1.head? = some x) (h2 : l2.head? = some x) :
    (s ++ l1).head? = (s ++ l2).head? := by
  cases s with
  | nil =>
    rw [List.nil_append, List.nil_append, h1, h2]
  | cons a t => rfl

/-- Taking one element keeps the head. -/
theorem head?_take1 (l : List (ℚ × ℚ)) : (l.take 1).head? = l.head? := by
  cases l with
  | nil => rfl
  | cons a t => rfl

/-- Strict stack turns weaken to weak stack turns. -/
theorem stackTurnsW_of_strict :
    ∀ {S : List (ℚ × ℚ)}, StrictTurns S → StackTurnsW S
  | [], _ => trivial
  | [_], _ => trivial
  | [_, _], _ => trivial
  | _ :: _ :: _ :: _, h => ⟨le_of_lt h.1, stackTurnsW_of_strict h.2⟩

/-- Weak stack turns restrict to the tail of the stack. -/
theorem stackTurnsW_tail {x : ℚ × ℚ} :
    ∀ {S : List (ℚ × ℚ)}, StackTurnsW (x :: S) → StackTurnsW S
  | [], _ => trivial
  | [_], _ => trivial
  | _ :: _ :: _, h => h.2

/-- Strict turns transfer back through pointwise negation. -/
theorem strictTurns_map_neg :
    ∀ {S : List (ℚ × ℚ)}, StrictTurns (S.map negP) → StrictTurns S
  | [], _ => trivial
  | [_], _ => trivial
  | [_, _], _ => trivial
  | x :: y :: z :: rest, h =>
    ⟨by
      have h1 := h.1
      rwa [ccp_neg] at h1,
      strictTurns_map_neg (S := y :: z :: rest) h.2⟩

/-- The topmost turn of a strict stack, extracted through head
options. -/
theorem strictTurns_head {x y z : ℚ × ℚ} {S : List (ℚ × ℚ)}
    (h : StrictTurns (x :: S)) (hy : S.head? = some y)
    (hz : S.tail.head? = some z) : 0 < cross_product_compare z y x := by
  cases S with
  | nil => simp at hy
  | cons a T =>
    have ha : a = y := Option.some_inj.mp hy
    cases T with
    | nil => simp at hz
    | cons b T' =>
      have hb : b = z := Option.some_inj.mp hz
      rw [← ha, ← hb]
      exact h.1

/-- Lists of at most two vertices have no turn to violate. -/
theorem turnsOK_of_len_le :
    ∀ {S : List (ℚ × ℚ)}, S.length ≤ 2 → TurnsOK S
  | [], _ => trivial
  | [_], _ => trivial
  | [_, _], _ => trivial
  | _ :: _ :: _ :: _, h => by
    rw [List.length_cons, List.length_cons, List.length_cons] at h
    omega

/-- Prepending a vertex keeps some strict turn in the list. -/
theorem turnsStrict_cons_of {a : ℚ × ℚ} :
    ∀ {t : List (ℚ × ℚ)}, TurnsStrict t → TurnsStrict (a :: t)
  | [], h => False.elim h
  | [_], h => False.elim h
  | _ :: _ :: _, h => Or.inr h

/-- A strict turn anywhere inside a vertex list makes the list
turn-strict. -/
theorem turnsStrict_mid (xs : List (ℚ × ℚ)) (u v w : ℚ × ℚ)
    (ys : List (ℚ × ℚ)) (h : 0 < cross_product_compare u v w) :
    TurnsStrict (xs ++ u :: v :: w :: ys) := by
  induction xs with
  | nil =>
    rw [List.nil_append]
    show 0 < cross_product_compare u v w ∨ TurnsStrict (v :: w :: ys)
    exact Or.inl h
  | cons a t ih => exact turnsStrict_cons_of ih

/-- The weak-turn invariant of a reversed stack glued onto a further
vertex list: all interior turns come from the stack, the two junction
turns from the bridge hypotheses, the rest from the tail list. -/
theorem turnsOK_rev_append :
    ∀ (S : List (ℚ × ℚ)), ∀ (ys : List (ℚ × ℚ)),
      StackTurnsW S →
      (∀ x2 x1 y1, S.head? = some x2 → S.tail.head? = some x1 →
        ys.head? = some y1 → 0 ≤ cross_product_compare x1 x2 y1) →
      (∀ x2 y1 y2, S.head? = some x2 → ys.head? = some y1 →
        ys.tail.head? = some y2 → 0 ≤ cross_product_compare x2 y1 y2) →
      TurnsOK ys → TurnsOK (S.reverse ++ ys) := by
  intro S
  induction S with
  | nil =>
    intro ys _ _ _ h
    simpa using h
  | cons x S' ih =>
    intro ys hw hb1 hb2 hys
    rw [List.reverse_cons, List.append_assoc, List.singleton_append]
    refine ih (x :: ys) (stackTurnsW_tail hw) ?_ ?_ ?_
    · intro x2 x1 y1 h2 h1 hy
      have hxy : x = y1 := Option.some_inj.mp hy
      cases S' with
      | nil => simp at h2
      | cons a T =>
        have ha : a = x2 := Option.some_inj.mp h2
        cases T with
        | nil => simp at h1
        | cons b T' =>
          have hb : b = x1 := Option.some_inj.mp h1
          rw [← hxy, ← ha, ← hb]
          exact hw.1
    · intro x2 y1 y2 h2 hy1 hy2
      have hxy : x = y1 := Option.some_inj.mp hy1
      rw [← hxy]
      exact hb1 x x2 y2 rfl h2 hy2
    · cases ys with
      | nil => trivial
      | cons y1 ys' =>
        cases ys' with
        | nil => trivial
        | cons y2 ys'' =>
          show 0 ≤ cross_product_compare x y1 y2 ∧ TurnsOK (y1 :: y2 :: ys'')
          exact ⟨hb2 x y1 y2 rfl rfl rfl, hys⟩

/-- A pair of the self-zip of a list ending in two fixed entries is
either that final pair or has its second entry before the very last
position. -/
theorem zip_last_pair :
    ∀ (S : List (ℚ × ℚ)) (b c : ℚ × ℚ) (pr : (ℚ × ℚ) × (ℚ × ℚ)),
      pr ∈ (S ++ [b, c]).zip (S ++ [b, c]).tail →
      pr = (b, c) ∨ pr.2 ∈ S ++ [b] := by
  intro S
  induction S with
  | nil =>
    intro b c pr hpr
    rw [List.nil_append] at hpr
    have h2 : pr = (b, c) := by
      have h := hpr
      rw [show ([b, c] : List (ℚ × ℚ)).zip ([b, c] : List (ℚ × ℚ)).tail
        = [(b, c)] from rfl] at h
      exact List.mem_singleton.mp h
    exact Or.inl h2
  | cons x S' ih =>
    intro b c pr hpr
    rw [List.cons_append] at hpr
    rcases hS : S' ++ [b, c] with _ | ⟨y, T⟩
    · exact absurd hS (by simp)
    · rw [hS, zip_tail_cons] at hpr
      rcases List.mem_cons.mp hpr with he | hmem
      · right
        rw [he]
        show y ∈ (x :: S') ++ [b]
        rw [List.cons_append]
        apply List.mem_cons_of_mem
        cases S' with
        | nil =>
          rw [List.nil_append] at hS
          have hb : b = y := by
            have h := congrArg List.head? hS
            rw [List.head?_cons, List.head?_cons] at h
            exact Option.some_inj.mp h
          rw [List.nil_append, ← hb]
          exact List.mem_cons_self _ _
        | cons z S'' =>
          have hz : z = y := by
            have h := congrArg List.head? hS
            rw [List.cons_append, List.head?_cons, List.head?_cons] at h
            exact Option.some_inj.mp h
          rw [List.cons_append, ← hz]
          exact List.mem_cons_self _ _
      · rw [← hS] at hmem
        rcases ih b c pr hmem with he | hmem2
        · exact Or.inl he
        · right
          rw [List.cons_append]
          exact List.mem_cons_of_mem _ hmem2

/-- Points all on the line through two distinct points are pairwise
collinear among themselves. -/
theorem collinear_all {l : List (ℚ × ℚ)} {m M : ℚ × ℚ} (hmM : m ≠ M)
    (h : ∀ q ∈ l, cross_product_compare m M q = 0) : all_collinear l := by
  intro a ha b hb c hc
  have hA := h a ha
  have hB := h b hb
  have hC := h c hc
  rw [ccp_coords] at hA hB hC
  rw [ccp_coords]
  have hv : M.1 - m.1 ≠ 0 ∨ M.2 - m.2 ≠ 0 := by
    by_contra hcon
    push_neg at hcon
    obtain ⟨h1, h2⟩ := hcon
    exact hmM (Prod.ext (by linarith) (by linarith))
  rcases hv with hv | hv
  · have key : (M.1 - m.1) ^ 2 *
        ((b.1 - a.1) * (c.2 - a.2) - (b.2 - a.2) * (c.1 - a.1)) = 0 := by
      linear_combination ((M.1 - m.1) * (b.1 - a.1)) * hC -
        ((M.1 - m.1) * (c.1 - a.1)) * hB +
        ((M.1 - m.1) * (c.1 - a.1) - (M.1 - m.1) * (b.1 - a.1)) * hA
    rcases mul_eq_zero.mp key with h0 | h0
    · exact absurd h0 (pow_ne_zero 2 hv)
    · exact h0
  · have key : (M.2 - m.2) ^ 2 *
        ((b.1 - a.1) * (c.2 - a.2) - (b.2 - a.2) * (c.1 - a.1)) = 0 := by
      linear_combination ((M.2 - m.2) * (b.2 - a.2)) * hC -
        ((M.2 - m.2) * (c.2 - a.2)) * hB +
        ((M.2 - m.2) * (c.2 - a.2) - (M.2 - m.2) * (b.2 - a.2)) * hA
    rcases mul_eq_zero.mp key with h0 | h0
    · exact absurd h0 (pow_ne_zero 2 hv)
    · exact h0

/-- The junction turn at the lexicographic maximum: the vertex below
the top of the lower chain, the shared top, and the first vertex of the
upper chain's descent make a weak left turn. -/
theorem junction_max {l : List (ℚ × ℚ)} (hpw : l.Pairwise lexLt)
    (hlen : 2 ≤ l.length) {A M B : ℚ × ℚ}
    (hA : (buildChain l).tail.head? = some A)
    (hM : (buildChain l).head? = some M)
    (hB : (buildChain l.reverse).reverse.tail.head? = some B) :
    0 ≤ cross_product_compare A M B := by
  obtain ⟨-, hLchain, -, hLmem, hLcov, -, -⟩ := buildChain_spec l hpw hlen
  obtain ⟨-, hUchain, -, hUmem, hUcov, -, -⟩ := upper_chainInv l hpw hlen
  obtain ⟨hLhead, -, -, hUlast, -, -⟩ := chain_ends hpw hlen
  obtain ⟨T0, hL0⟩ := head?_shape hM
  have hA2 : T0.head? = some A := by
    have h := hA
    rw [hL0, List.tail_cons] at h
    exact h
  obtain ⟨Lr, hT0⟩ := head?_shape hA2
  have hLsh : buildChain l = M :: A :: Lr := by rw [hL0, hT0]
  have hUgl : (buildChain l.reverse).reverse.head? = some M := by
    rw [List.head?_reverse, hUlast, ← hLhead, hLsh]
    rfl
  obtain ⟨T1, hU0⟩ := head?_shape hUgl
  have hB2 : T1.head? = some B := by
    have h := hB
    rw [hU0, List.tail_cons] at h
    exact h
  obtain ⟨T2, hT1⟩ := head?_shape hB2
  have hUrevsh : (buildChain l.reverse).reverse = M :: B :: T2 := by
    rw [hU0, hT1]
  have hUsh : buildChain l.reverse = T2.reverse ++ [B, M] := by
    have h := congrArg List.reverse hUrevsh
    rw [List.reverse_reverse] at h
    rw [h, List.reverse_cons, List.reverse_cons, List.append_assoc]
    rfl
  have hAl : A ∈ l := hLmem A (by
    rw [hLsh]
    exact List.mem_cons_of_mem _ (List.mem_cons_self _ _))
  have hBU : B ∈ buildChain l.reverse := by
    rw [hUsh]
    exact List.mem_append_right _ (List.mem_cons_self _ _)
  have hBl : B ∈ l := by
    have h := hUmem (negP B) (List.mem_map_of_mem negP hBU)
    obtain ⟨w, hw, hwx⟩ := List.mem_map.mp h
    rw [← negP_inj hwx]
    exact List.mem_reverse.mp hw
  have hcovB := hLcov B hBl
  rw [hLsh] at hcovB
  rcases aboveChain_cons.mp hcovB with ⟨y, hy, hab⟩ | hrest
  · have hAy : A = y := Option.some_inj.mp hy
    rw [← hAy] at hab
    exact hab.2.2
  · have hBA : lexLe B A := by
      obtain ⟨pr, hpr, hab⟩ := hrest
      have hp1 : pr.1 ∈ A :: Lr := (List.of_mem_zip hpr).1
      have hchainA : (A :: Lr).Pairwise (fun x y => lexLt y x) := by
        rw [← List.chain'_iff_pairwise]
        rw [hLsh] at hLchain
        exact (List.chain'_cons.mp hLchain).2
      have hle : lexLe pr.1 A := by
        rcases List.mem_cons.mp hp1 with he | hmem
        · rw [he]
          exact lexLe_refl A
        · exact lexLt_le ((List.pairwise_cons.mp hchainA).1 pr.1 hmem)
      exact lexLe_trans hab.2.1 hle
    have hAneg : negP A ∈ l.reverse.map negP :=
      List.mem_map_of_mem negP (List.mem_reverse.mpr hAl)
    have hcovA := hUcov (negP A) hAneg
    have hmapU : (buildChain l.reverse).map negP =
        T2.reverse.map negP ++ [negP B, negP M] := by
      rw [hUsh, List.map_append]
      rfl
    rw [hmapU] at hcovA
    obtain ⟨pr, hpr, hab2⟩ := hcovA
    rcases zip_last_pair _ _ _ _ hpr with he | hmem2
    · have h3 : 0 ≤ cross_product_compare (negP M) (negP B) (negP A) := by
        have h4 := hab2.2.2
        rw [he] at h4
        exact h4
      rw [ccp_neg] at h3
      rw [ccp_cycle]
      exact h3
    · have hchainU : (T2.reverse.map negP ++ [negP B, negP M]).Pairwise
          (fun x y => lexLt y x) := by
        rw [← List.chain'_iff_pairwise, ← hmapU]
        exact hUchain
      have hle2 : lexLe (negP B) pr.2 := by
        rcases List.mem_append.mp hmem2 with hm2 | hm2
        · exact lexLt_le ((List.pairwise_append.mp hchainU).2.2 pr.2 hm2
            (negP B) (List.mem_cons_self _ _))
        · rw [List.mem_singleton.mp hm2]
          exact lexLe_refl _
      have hle3 : lexLe (negP B) (negP A) := lexLe_trans hle2 hab2.1
      have hAB : lexLe A B := lexLe_neg_iff.mp hle3
      have hEq : A = B := lexLe_antisymm hAB hBA
      rw [← hEq, ccp_self_mid]

/-- The assembled hull polygon of a strictly ascending list of at least
three points, not all collinear: it starts at the lexicographic minimum
and is ordered counter-clockwise. -/
theorem hull_chains_ccw {l : List (ℚ × ℚ)} (hpw : l.Pairwise lexLt)
    (h3 : 3 ≤ l.length) (hnc : ¬all_collinear l) :
    (∃ m, ((buildChain l).tail.reverse ++
        (buildChain l.reverse).tail.reverse).head? = some m ∧
      ∀ p ∈ l, lexLe m p) ∧
    counter_clockwise
      ((buildChain l).tail.reverse ++
        (buildChain l.reverse).tail.reverse) := by
  have hlen : 2 ≤ l.length := le_trans (by norm_num) h3
  obtain ⟨hLhead, hLlast, hUhead, hUlast, hLlen, hUlen⟩ := chain_ends hpw hlen
  obtain ⟨-, -, hLturn, -, hLcov, -, -⟩ := buildChain_spec l hpw hlen
  obtain ⟨-, -, hUturnN, -, hUcov, -, -⟩ := upper_chainInv l hpw hlen
  have hUturn : StrictTurns (buildChain l.reverse) := strictTurns_map_neg hUturnN
  have hne : l ≠ [] := by
    intro he
    rw [he] at hlen
    simp at hlen
  obtain ⟨m, hmhead⟩ : ∃ m, l.head? = some m := by
    cases l with
    | nil => exact absurd rfl hne
    | cons a t => exact ⟨a, rfl⟩
  obtain ⟨M, hMlast⟩ : ∃ M, l.getLast? = some M := by
    rw [← List.head?_reverse]
    cases hrev : l.reverse with
    | nil => exact absurd (List.reverse_eq_nil_iff.mp hrev) hne
    | cons a t => exact ⟨a, rfl⟩
  have hLheadM : (buildChain l).head? = some M := by
    rw [hLhead]
    exact hMlast
  have hUheadm : (buildChain l.reverse).head? = some m := by
    rw [hUhead]
    exact hmhead
  have hLlastm : (buildChain l).getLast? = some m := by
    rw [hLlast]
    exact hmhead
  have hUlastM : (buildChain l.reverse).getLast? = some M := by
    rw [hUlast]
    exact hMlast
  obtain ⟨Lt, hLsh⟩ := head?_shape hLheadM
  obtain ⟨Ut, hUsh⟩ := head?_shape hUheadm
  have hLtne : Lt ≠ [] := by
    intro he
    rw [hLsh, he] at hLlen
    simp at hLlen
  have hUtne : Ut ≠ [] := by
    intro he
    rw [hUsh, he] at hUlen
    simp at hUlen
  have hLtlastm : Lt.getLast? = some m := by
    obtain ⟨a0, Lt0, hLt0⟩ := List.exists_cons_of_ne_nil hLtne
    rw [hLsh, hLt0, List.getLast?_cons_cons] at hLlastm
    rw [hLt0]
    exact hLlastm
  have hUtlastM : Ut.getLast? = some M := by
    obtain ⟨c0, Ut0, hUt0⟩ := List.exists_cons_of_ne_nil hUtne
    rw [hUsh, hUt0, List.getLast?_cons_cons] at hUlastM
    rw [hUt0]
    exact hUlastM
  obtain ⟨Ltr1, hLtr⟩ := head?_shape (show Lt.reverse.head? = some m by
    rw [List.head?_reverse]
    exact hLtlastm)
  obtain ⟨Utr1, hUtr⟩ := head?_shape (show Ut.reverse.head? = some M by
    rw [List.head?_reverse]
    exact hUtlastM)
  have hLturnL : StrictTurns (M :: Lt) := by
    rw [← hLsh]
    exact hLturn
  have hUturnU : StrictTurns (m :: Ut) := by
    rw [← hUsh]
    exact hUturn
  have hhull : (buildChain l).tail.reverse ++
      (buildChain l.reverse).tail.reverse = Lt.reverse ++ Ut.reverse := by
    rw [hLsh, hUsh]
    rfl
  constructor
  · refine ⟨m, ?_, ?_⟩
    · rw [hhull, hLtr]
      exact head?_append_eq rfl
    · intro p hp
      obtain ⟨lt0, hlt0⟩ := head?_shape hmhead
      rw [hlt0] at hp
      rcases List.mem_cons.mp hp with he | hp2
      · rw [he]
        exact lexLe_refl _
      · have hpw2 := hpw
        rw [hlt0] at hpw2
        exact lexLt_le ((List.pairwise_cons.mp hpw2).1 p hp2)
  · rw [hhull]
    unfold counter_clockwise
    have htk2 : (Lt.reverse ++ Ut.reverse).take 2 =
        m :: (Ltr1 ++ Ut.reverse).take 1 := by
      rw [hLtr]
      rfl
    have htk2head : ((Lt.reverse ++ Ut.reverse).take 2).head? = some m := by
      rw [htk2]
      rfl
    have htk2tail : ((Lt.reverse ++ Ut.reverse).take 2).tail.head? =
        (Ltr1 ++ Ut.reverse).head? := by
      rw [htk2, List.tail_cons, head?_take1]
    have htk2len : ((Lt.reverse ++ Ut.reverse).take 2).length ≤ 2 := by
      rw [List.length_take]
      exact min_le_left _ _
    obtain ⟨t2, ht2⟩ : ∃ t2, (Lt.reverse ++ Ut.reverse).take 2 = t2 := ⟨_, rfl⟩
    rw [ht2] at htk2head htk2tail htk2len ⊢
    have hysM : (Ut.reverse ++ t2).head? = some M :=
      head?_append_eq (by rw [hUtr]; rfl)
    constructor
    · rw [List.append_assoc]
      refine turnsOK_rev_append Lt (Ut.reverse ++ t2) ?_ ?_ ?_ ?_
      · exact stackTurnsW_of_strict (strictTurns_tail (x := M) hLturnL)
      · intro x2 x1 y1 h2 h1 hy
        rw [hysM] at hy
        have hy1M : y1 = M := (Option.some_inj.mp hy).symm
        rw [hy1M]
        exact le_of_lt (strictTurns_head hLturnL h2 h1)
      · intro x2 y1 y2 h2 hy1 hy2
        rw [hysM] at hy1
        have hy1M : y1 = M := (Option.some_inj.mp hy1).symm
        rw [hy1M]
        refine junction_max hpw hlen ?_ hLheadM ?_
        · rw [hLsh]
          exact h2
        · have hUrev2 : (buildChain l.reverse).reverse =
              M :: (Utr1 ++ [m]) := by
            rw [hUsh, List.reverse_cons, hUtr]
            rfl
          rw [hUrev2, List.tail_cons]
          rw [head?_append_congr
            (show ([m] : List (ℚ × ℚ)).head? = some m from rfl) htk2head]
          rw [hUtr] at hy2
          exact hy2
      · refine turnsOK_rev_append Ut t2 ?_ ?_ ?_ ?_
        · exact stackTurnsW_of_strict (strictTurns_tail (x := m) hUturnU)
        · intro x2 x1 y1 h2 h1 hy
          rw [htk2head] at hy
          have hy1m : y1 = m := (Option.some_inj.mp hy).symm
          rw [hy1m]
          exact le_of_lt (strictTurns_head hUturnU h2 h1)
        · intro x2 y1 y2 h2 hy1 hy2
          rw [htk2head] at hy1
          have hy1m : y1 = m := (Option.some_inj.mp hy1).symm
          rw [hy1m]
          have hpw2 : (l.reverse.map negP).Pairwise lexLt :=
            reverse_neg_pairwise hpw
          have hlen2 : 2 ≤ (l.reverse.map negP).length := by
            rw [List.length_map, List.length_reverse]
            exact hlen
          have hbc1 : buildChain (l.reverse.map negP) =
              (buildChain l.reverse).map negP := buildChain_neg l.reverse
          have hrevrev : (l.reverse.map negP).reverse = l.map negP := by
            rw [List.map_reverse, List.reverse_reverse]
          have hbc2 : buildChain (l.reverse.map negP).reverse =
              (buildChain l).map negP := by
            rw [hrevrev]
            exact buildChain_neg l
          have hA2 : (buildChain (l.reverse.map negP)).tail.head? =
              some (negP x2) := by
            rw [hbc1, hUsh]
            show (Ut.map negP).head? = some (negP x2)
            rw [List.head?_map, h2]
            rfl
          have hM2 : (buildChain (l.reverse.map negP)).head? =
              some (negP m) := by
            rw [hbc1, hUsh]
            rfl
          have hB2 : (buildChain (l.reverse.map negP).reverse).reverse.tail.head?
              = some (negP y2) := by
            rw [hbc2, hLsh]
            show ((negP M :: Lt.map negP).reverse).tail.head? = some (negP y2)
            rw [List.reverse_cons]
            rw [← List.map_reverse, hLtr]
            show (Ltr1.map negP ++ [negP M]).head? = some (negP y2)
            rw [show (Ltr1.map negP ++ [negP M]) = (Ltr1 ++ [M]).map negP from
              by rw [List.map_append]; rfl]
            rw [List.head?_map]
            rw [head?_append_congr
              (show ([M] : List (ℚ × ℚ)).head? = some M from rfl)
              (show Ut.reverse.head? = some M from by rw [hUtr]; rfl)]
            rw [← htk2tail, hy2]
            rfl
          have hres := junction_max hpw2 hlen2 hA2 hM2 hB2
          rw [ccp_neg] at hres
          exact hres
        · exact turnsOK_of_len_le htk2len
    · obtain ⟨a1, Lt1, hLt1⟩ := List.exists_cons_of_ne_nil hLtne
      cases Lt1 with
      | cons b1 Lt2 =>
        have hstrict : 0 < cross_product_compare b1 a1 M := by
          have h := hLturnL
          rw [hLt1] at h
          exact h.1
        have hLtrev2 : Lt.reverse = Lt2.reverse ++ [b1, a1] := by
          simp [hLt1]
        have hmid := turnsStrict_mid Lt2.reverse b1 a1 M (Utr1 ++ t2) hstrict
        rw [hLtrev2, hUtr]
        simp only [List.append_assoc, List.cons_append, List.singleton_append,
          List.nil_append] at hmid ⊢
        exact hmid
      | nil =>
        obtain ⟨c1, Ut1, hUt1⟩ := List.exists_cons_of_ne_nil hUtne
        cases Ut1 with
        | cons d1 Ut2 =>
          have hstrict : 0 < cross_product_compare d1 c1 m := by
            have h := hUturnU
            rw [hUt1] at h
            exact h.1
          have hUtrev2 : Ut.reverse = Ut2.reverse ++ [d1, c1] := by
            simp [hUt1]
          obtain ⟨t2r, ht2rsh⟩ := head?_shape htk2head
          have hmid := turnsStrict_mid (Lt.reverse ++ Ut2.reverse) d1 c1 m
            t2r hstrict
          rw [hUtrev2, ht2rsh]
          simp only [List.append_assoc, List.cons_append, List.singleton_append,
            List.nil_append] at hmid ⊢
          exact hmid
        | nil =>
          exfalso
          have ham : a1 = m := by
            have h := hLtlastm
            rw [hLt1] at h
            simpa using h
          have hcM : c1 = M := by
            have h := hUtlastM
            rw [hUt1] at h
            simpa using h
          have hLfull : buildChain l = [M, m] := by
            rw [hLsh, hLt1, ham]
          have hUfull : buildChain l.reverse = [m, M] := by
            rw [hUsh, hUt1, hcM]
          have hMtail : M ∈ l.tail := getLast?_mem_tail hlen hMlast
          obtain ⟨lt0, hlt0⟩ := head?_shape hmhead
          have hmMlt : lexLt m M := by
            have hpw2 := hpw
            rw [hlt0] at hpw2 hMtail
            exact (List.pairwise_cons.mp hpw2).1 M hMtail
          have hmM : m ≠ M := by
            intro he
            rw [← he] at hmMlt
            rcases hmMlt with h | ⟨-, h⟩
            · exact lt_irrefl _ h
            · exact lt_irrefl _ h
          have hz : ∀ q ∈ l, cross_product_compare m M q = 0 := by
            intro q hq
            have hup : 0 ≤ cross_product_compare m M q := by
              have hc := hLcov q hq
              rw [hLfull] at hc
              obtain ⟨pr, hpr, hab⟩ := hc
              have hpe : pr = (M, m) := by
                have h := hpr
                rw [show ([M, m] : List (ℚ × ℚ)).zip
                  ([M, m] : List (ℚ × ℚ)).tail = [(M, m)] from rfl] at h
                exact List.mem_singleton.mp h
              have h3 := hab.2.2
              rw [hpe] at h3
              exact h3
            have hdn : cross_product_compare m M q ≤ 0 := by
              have hqneg : negP q ∈ l.reverse.map negP :=
                List.mem_map_of_mem negP (List.mem_reverse.mpr hq)
              have hc := hUcov (negP q) hqneg
              rw [hUfull] at hc
              obtain ⟨pr, hpr, hab⟩ := hc
              have hpe : pr = (negP m, negP M) := by
                have h := hpr
                rw [show (([m, M] : List (ℚ × ℚ)).map negP).zip
                  ((([m, M] : List (ℚ × ℚ)).map negP)).tail
                  = [(negP m, negP M)] from rfl] at h
                exact List.mem_singleton.mp h
              have h3 : 0 ≤ cross_product_compare (negP M) (negP m) (negP q) := by
                have h4 := hab.2.2
                rw [hpe] at h4
                exact h4
              rw [ccp_neg, ccp_rebase] at h3
              linarith
            exact le_antisymm hdn hup
          exact hnc (collinear_all hmM hz)

/-- C9: `simple_convex_hull` deduplicates its input and returns fewer
than two unique points as-is; for a point set with at least three
unique points not all collinear, the returned vertex cycle starts at
the lexicographically smallest point (sorted by x, then y) and is
ordered counter-clockwise. -/
theorem simple_convex_hull_ccw (points : List (ℚ × ℚ))
    (h3 : 3 ≤ (unique_points points).length)
    (hnc : ¬all_collinear points) :
    (∀ pts : List (ℚ × ℚ), (unique_points pts).length < 2 →
      simple_convex_hull pts = unique_points pts) ∧
    (∃ m, (simple_convex_hull points).head? = some m ∧
      ∀ p ∈ points, lexLe m p) ∧
    counter_clockwise (simple_convex_hull points) := by
  have hnc2 : ¬all_collinear (unique_points points) := by
    intro h
    apply hnc
    intro a ha b hb c hc
    exact h a (mem_unique_points.mpr ha) b (mem_unique_points.mpr hb) c
      (mem_unique_points.mpr hc)
  have hlen : 2 ≤ (unique_points points).length := le_trans (by norm_num) h3
  obtain ⟨⟨m, hm1, hm2⟩, hccw⟩ :=
    hull_chains_ccw (unique_points_pairwise points) h3 hnc2
  refine ⟨fun pts h => simple_convex_hull_small h, ⟨m, ?_, ?_⟩, ?_⟩
  · rw [simple_convex_hull_large hlen]
    exact hm1
  · intro p hp
    exact hm2 p (mem_unique_points.mpr hp)
  · rw [simple_convex_hull_large hlen]
    exact hccw

/-- Witness for C9: a concrete four-point input with three unique
corner points spanning a proper triangle; its hull starts at the
lexicographic minimum and is counter-clockwise. -/
theorem simple_convex_hull_ccw_witness :
    3 ≤ (unique_points
      [((0 : ℚ), (0 : ℚ)), (2, 0), (1, 1), (1, 0)]).length ∧
      ¬all_collinear [((0 : ℚ), (0 : ℚ)), (2, 0), (1, 1), (1, 0)] ∧
      counter_clockwise
        (simple_convex_hull [((0 : ℚ), (0 : ℚ)), (2, 0), (1, 1), (1, 0)]) := by
  have h3 : 3 ≤ (unique_points
      [((0 : ℚ), (0 : ℚ)), (2, 0), (1, 1), (1, 0)]).length := by decide
  have hnc : ¬all_collinear [((0 : ℚ), (0 : ℚ)), (2, 0), (1, 1), (1, 0)] := by
    intro h
    have hc := h (0, 0) (by simp) (2, 0) (by simp) (1, 1) (by simp)
    rw [ccp_coords] at hc
    norm_num at hc
  exact ⟨h3, hnc,
    (simple_convex_hull_ccw [((0 : ℚ), (0 : ℚ)), (2, 0), (1, 1), (1, 0)]
      h3 hnc).2.2⟩

end Bezier
